import Mathlib

/-!
Verification of the data ingestion and reconciliation pipeline of the
upd-new repository (UrlsService, DbUpdateService and the ad-hoc
migration/repair scripts).

The TypeScript sources are shallowly embedded: pure computations become
Lean functions, database/blob-storage mutations become explicit state
passing over list-modelled collections, and fallible asynchronous
operations are driven by explicit success/failure oracles.  JavaScript
`Set` insertion and stable `Array.prototype.sort` are modelled by
`addSet` and the stable insertion sort `sortBy`.
-/

namespace UpdPipeline

/-- JS `Set.prototype.add`: append the element iff it is not present.
Models insertion-ordered sets (`redundantHashes`, `hashesToKeep`). -/
def addSet (l : List String) (h : String) : List String :=
  if h ∈ l then l else l ++ [h]

/-- Insert `x` into `l` after every element `y` with `le y x`.
Auxiliary for the stable insertion sort `sortBy`. -/
def insSorted {α : Type} (le : α → α → Bool) (x : α) : List α → List α
  | [] => [x]
  | y :: ys => if le y x then y :: insSorted le x ys else x :: y :: ys

/-- Stable sort modelling JS `Array.prototype.sort` with a `<=`-style
comparator (ties keep their original relative order). -/
def sortBy {α : Type} (le : α → α → Bool) (l : List α) : List α :=
  l.foldl (fun acc x => insSorted le x acc) []

/-- The bulk-write batching loop
`while (ops.length) await write(ops.splice(0, batchSize))`:
`splice(0, n)` removes and returns the first `min(n, length)` elements,
so the loop submits successive prefixes of length at most `batchSize`.
(Faithful for `batchSize >= 1`; the source only uses 1000 and 20000.) -/
def spliceChunks {α : Type} (batchSize : Nat) : List α → List (List α)
  | [] => []
  | x :: xs =>
    (x :: xs.take (batchSize - 1)) :: spliceChunks batchSize (xs.drop (batchSize - 1))
termination_by l => l.length
decreasing_by simp only [List.length_cons, List.length_drop]; omega

/-- Chunking used by `repopulateGscPageSearchTerms`
(`bulkWriteOps.splice(0, 1000)` submitted via `bulkWrite`). -/
def repopulateGscPageSearchTermsBatches {α : Type} (bulkWriteOps : List α) : List (List α) :=
  spliceChunks 1000 bulkWriteOps

/-- Chunking used by `importGcTss`
(`data.splice(0, 20000)` submitted via `insertMany`). -/
def importGcTssBatches {α : Type} (data : List α) : List (List α) :=
  spliceChunks 20000 data

/-! ### Snapshot deduplication: `removeRedundantUrlHashes` scan phase

The script first deletes duplicate readability documents (same url and
hash), aborting if a duplicate group disagrees on score or word count;
it then classifies each url's date-sorted readability scores into
equivalence runs, keeping the first score of every run and marking the
previously seen score of a run as redundant each time the run continues. -/

/-- A readability collection document, projected to the fields used by
`removeRedundantUrlHashes`.  `rid` stands for the Mongo `_id`; dates are
integer timestamps and the floating-point `final_fk_score` is modelled
by an integer code, since the scan only compares scores for equality. -/
structure RDoc where
  rid : Nat
  url : String
  hash : String
  date : Int
  final_fk_score : Int
  total_words : Int
deriving DecidableEq, Repr

/-- `isSame` from the source: two scores are interchangeable when final
score and word count coincide. -/
def isSame (a b : RDoc) : Bool :=
  a.final_fk_score == b.final_fk_score && a.total_words == b.total_words

/-- Comparator used by the duplicate-deletion pre-pass. -/
def compareReadabilityDocs (a b : RDoc) : Bool :=
  a.url == b.url && a.hash == b.hash &&
    a.final_fk_score == b.final_fk_score && a.total_words == b.total_words

/-- Sort key for `sort((a, b) => a.date.getTime() - b.date.getTime())`. -/
def dateLe (a b : RDoc) : Bool := a.date ≤ b.date

/-- Grouping key of the `$group` stage: `(url, hash)`. -/
def rKey (d : RDoc) : String × String := (d.url, d.hash)

/-- The documents of one `$group` bucket, in collection order. -/
def groupFor (docs : List RDoc) (k : String × String) : List RDoc :=
  docs.filter (fun d => rKey d = k)

/-- `sorted.every((doc, i) => compare(doc, sorted[i + 1] || doc))`:
adjacent documents of the sorted group all compare equal. -/
def allAreSame (sorted : List RDoc) : Bool :=
  (sorted.zip sorted.tail).all (fun p => compareReadabilityDocs p.1 p.2)

/-- Keys whose bucket has more than one document (`$match count > 1`). -/
def dupKeys (docs : List RDoc) : List (String × String) :=
  ((docs.map rKey).dedup).filter (fun k => 1 < (groupFor docs k).length)

/-- `_id`s deleted by the pre-pass: for every duplicate bucket, all but
the earliest-dated document (`const [keep, ...rest] = sorted`). -/
def dedupDeletedIds (docs : List RDoc) : List Nat :=
  (dupKeys docs).flatMap (fun k => ((sortBy dateLe (groupFor docs k)).drop 1).map RDoc.rid)

/-- The duplicate-deletion pre-pass of `removeRedundantUrlHashes`: throws
when some duplicate bucket contains disagreeing documents, otherwise
returns the collection with the duplicate documents removed. -/
def dedupReadability (docs : List RDoc) : Except String (List RDoc) :=
  if (dupKeys docs).all (fun k => allAreSame (sortBy dateLe (groupFor docs k))) then
    Except.ok (docs.filter (fun d => ! (dedupDeletedIds docs).contains d.rid))
  else
    Except.error "Not all docs are the same"

/-- A hash entry of a `urls` document. -/
structure UrlHashEntry where
  hash : String
  date : Int
deriving DecidableEq, Repr

/-- A `urls` document as projected by the scan's aggregation
(`url`, `hashes`). -/
structure UrlAggDoc where
  url : String
  hashes : List UrlHashEntry
deriving DecidableEq, Repr

/-- The two insertion-ordered sets accumulated by the scan. -/
structure ScanState where
  redundantHashes : List String
  hashesToKeep : List String
deriving DecidableEq, Repr

/-- `shouldSkip`: the hash was already classified. -/
def shouldSkip (st : ScanState) (hash : String) : Bool :=
  st.redundantHashes.contains hash || st.hashesToKeep.contains hash

/-- The inner scoring loop of the scan: walk the date-sorted scores,
start a new run (keeping its first score) whenever the current score
differs from the run start, and otherwise mark the previous score of
the run as redundant once a further score of the same run arrives. -/
def classifyScores (st : ScanState) (runStart prev : Option RDoc) :
    List RDoc → ScanState
  | [] => st
  | score :: rest =>
    match runStart with
    | none =>
      classifyScores
        { st with hashesToKeep := addSet st.hashesToKeep score.hash }
        (some score) none rest
    | some r =>
      if isSame r score then
        match prev with
        | none => classifyScores st (some r) (some score) rest
        | some p =>
          classifyScores
            { st with redundantHashes := addSet st.redundantHashes p.hash }
            (some r) (some score) rest
      else
        classifyScores
          { st with hashesToKeep := addSet st.hashesToKeep score.hash }
          (some score) none rest

/-- `readabilityScoresByUrl[url]`: the readability documents of one url,
in collection order (`arrayToDictionaryMultiref` groups by key keeping
array order). -/
def scoresForUrl (readability : List RDoc) (url : String) : List RDoc :=
  readability.filter (fun d => d.url = url)

/-- Processing of one aggregated url document: skip hashes already
classified, require more than 2 unclassified hashes and more than 2
unclassified readability scores, then run the scoring loop on the
date-sorted scores. -/
def processUrlDoc (readability : List RDoc) (st : ScanState) (urlDoc : UrlAggDoc) :
    ScanState :=
  let urlHashes := urlDoc.hashes.filter (fun e => ! shouldSkip st e.hash)
  if urlHashes.length ≤ 2 then st
  else
    let readabilityScores :=
      sortBy dateLe
        ((scoresForUrl readability urlDoc.url).filter (fun d => ! shouldSkip st d.hash))
    if readabilityScores.length ≤ 2 then st
    else classifyScores st none none readabilityScores

/-- Aggregation sort `hashesCount: -1` (descending by number of hashes). -/
def hashesCountDesc (a b : UrlAggDoc) : Bool := b.hashes.length ≤ a.hashes.length

/-- The whole scan phase: url documents with more than 6 hashes, sorted
by descending hash count, folded through `processUrlDoc` starting from
empty classification sets. -/
def scanPhase (urls : List UrlAggDoc) (readability : List RDoc) : ScanState :=
  (sortBy hashesCountDesc (urls.filter (fun d => 6 < d.hashes.length))).foldl
    (processUrlDoc readability) ⟨[], []⟩

/-- Specification-level run decomposition: the maximal equivalence runs
of a score list, each run given by its first score and the following
contiguous scores with the same final score and word count. -/
def equivalenceRuns : List RDoc → List (RDoc × List RDoc)
  | [] => []
  | r :: rest =>
    (r, rest.takeWhile (isSame r)) :: equivalenceRuns (rest.dropWhile (isSame r))
termination_by l => l.length
decreasing_by
  simp only [List.length_cons]
  have h := (List.dropWhile_sublist (l := rest) (p := isSame score)).length_le
  omega

/-- Hashes of the run starts (the scores the scan keeps). -/
def runHeads (l : List RDoc) : List String :=
  (equivalenceRuns l).map (fun rt => rt.1.hash)

/-- Hashes the scan marks redundant: within each run, every score after
the run start except the last one. -/
def runRedundant (l : List RDoc) : List String :=
  (equivalenceRuns l).flatMap (fun rt => rt.2.dropLast.map RDoc.hash)

/-- Tail of the scoring loop once inside a run: `r` is the run start and
`p` the previous score of the run; every further score of the run marks
the previous one redundant. -/
def consumeRun (st : ScanState) (r p : RDoc) : List RDoc → ScanState × List RDoc
  | [] => (st, [])
  | score :: rest =>
    if isSame r score then
      consumeRun
        { st with redundantHashes := addSet st.redundantHashes p.hash }
        r score rest
    else (st, score :: rest)

/-! ### Removal phase of `removeRedundantUrlHashes`

Each redundant hash is processed in one `Promise.all` round: pull the
hash from every `urls` document, delete its readability documents and
delete its blob, each deletion removing the hash from the matching
`pendingOps` list in its `.then` callback.  If a round throws, the
`catch` handler dumps the current `pendingOps` lists to a JSON file. -/

/-- The three stores a redundant hash is deleted from. -/
inductive Store where
  | urls
  | readability
  | blobs
deriving DecidableEq, Repr

/-- The `pendingOps` bookkeeping object: one list of hashes per store. -/
structure PendingOps where
  urlHashesToRemove : List String
  readabilityHashesToDelete : List String
  blobHashesToDelete : List String
deriving DecidableEq, Repr

/-- The bookkeeping list of one store. -/
def PendingOps.listFor (p : PendingOps) : Store → List String
  | Store.urls => p.urlHashesToRemove
  | Store.readability => p.readabilityHashesToDelete
  | Store.blobs => p.blobHashesToDelete

/-- `pendingOps.addPending(hashes)`: push every hash onto all three
lists in iteration order. -/
def addPending (p : PendingOps) (hashes : List String) : PendingOps :=
  { urlHashesToRemove := p.urlHashesToRemove ++ hashes,
    readabilityHashesToDelete := p.readabilityHashesToDelete ++ hashes,
    blobHashesToDelete := p.blobHashesToDelete ++ hashes }

/-- `setUrlsProcessed` and friends: shift the list if the hash is at its
head, otherwise filter out every occurrence of the hash. -/
def removeProcessed (l : List String) (hash : String) : List String :=
  match l with
  | [] => []
  | x :: rest => if x = hash then rest else (x :: rest).filter (fun h => h ≠ hash)

/-- Removal of a confirmed hash from the bookkeeping list of one store. -/
def setProcessed (p : PendingOps) (s : Store) (hash : String) : PendingOps :=
  match s with
  | Store.urls =>
    { p with urlHashesToRemove := removeProcessed p.urlHashesToRemove hash }
  | Store.readability =>
    { p with readabilityHashesToDelete := removeProcessed p.readabilityHashesToDelete hash }
  | Store.blobs =>
    { p with blobHashesToDelete := removeProcessed p.blobHashesToDelete hash }

/-- Database and blob-storage state touched by the removal phase. -/
structure RemovalDbState where
  urls : List UrlAggDoc
  readability : List RDoc
  blobs : List String
deriving DecidableEq, Repr

/-- `urls.updateMany({'hashes.hash': hash}, { $pull: { hashes: { hash } } })`:
remove the entries with this hash from every urls document. -/
def pullUrlHash (db : RemovalDbState) (hash : String) : RemovalDbState :=
  { db with urls := db.urls.map (fun d => ⟨d.url, d.hashes.filter (fun e => e.hash ≠ hash)⟩) }

/-- `readability.deleteMany({ hash })`. -/
def deleteReadabilityHash (db : RemovalDbState) (hash : String) : RemovalDbState :=
  { db with readability := db.readability.filter (fun d => d.hash ≠ hash) }

/-- `blobContainer.blob(hash).delete()`. -/
def deleteBlob (db : RemovalDbState) (hash : String) : RemovalDbState :=
  { db with blobs := db.blobs.filter (fun b => b ≠ hash) }

/-- The outcome of one `Promise.all` round for a single hash: `none`
means all three deletions resolved and their confirmation callbacks
ran; `some f` means the round threw, `f s` telling whether the deletion
in store `s` had resolved and been confirmed by the time the `catch`
handler dumped the bookkeeping state. -/
def RemovalOracle : Type := String → Option (Store → Bool)

/-- Result of the removal phase: final bookkeeping state (the dumped
JSON when a round failed), final database state, the deletions
performed in order, and whether a dump happened. -/
structure RemovalResult where
  pending : PendingOps
  db : RemovalDbState
  trace : List (String × Store)
  dumped : Bool

/-- The `for (const hash of redundantHashes)` loop: process the hashes
one at a time; a failed round applies and confirms only the deletions
its oracle marks confirmed, then stops with a dump. -/
def removalLoop (o : RemovalOracle) : List String → PendingOps → RemovalDbState →
    List (String × Store) → RemovalResult
  | [], p, db, tr => ⟨p, db, tr, false⟩
  | h :: rest, p, db, tr =>
    match o h with
    | none =>
      removalLoop o rest
        (setProcessed (setProcessed (setProcessed p Store.urls h) Store.readability h) Store.blobs h)
        (deleteBlob (deleteReadabilityHash (pullUrlHash db h) h) h)
        (tr ++ [(h, Store.urls), (h, Store.readability), (h, Store.blobs)])
    | some f =>
      let p1 := if f Store.urls then setProcessed p Store.urls h else p
      let p2 := if f Store.readability then setProcessed p1 Store.readability h else p1
      let p3 := if f Store.blobs then setProcessed p2 Store.blobs h else p2
      let db1 := if f Store.urls then pullUrlHash db h else db
      let db2 := if f Store.readability then deleteReadabilityHash db1 h else db1
      let db3 := if f Store.blobs then deleteBlob db2 h else db2
      ⟨p3, db3,
        tr ++ (if f Store.urls then [(h, Store.urls)] else [])
           ++ (if f Store.readability then [(h, Store.readability)] else [])
           ++ (if f Store.blobs then [(h, Store.blobs)] else []),
        true⟩

/-- The whole removal phase: seed `pendingOps` with the redundant hashes
(`pendingOps.addPending(redundantHashes)`), then run the loop. -/
def removalPhase (o : RemovalOracle) (redundant : List String) (db : RemovalDbState) :
    RemovalResult :=
  removalLoop o redundant (addPending ⟨[], [], []⟩ redundant) db []

/-- Whether the deletion of `x` in store `s` resolves and is confirmed
during the run: rounds run in list order and the first failed round
stops the loop. -/
def confirmedIn (o : RemovalOracle) : List String → String → Store → Bool
  | [], _, _ => false
  | h :: rest, x, s =>
    match o h with
    | none => if h = x then true else confirmedIn o rest x s
    | some f => if h = x then f s else false

/-! ### `UrlsService.updateUrls` option guard (C10) -/

/-- The `urls` options of `UpdateUrlsOptions`; `filter` is modelled by
its presence (any present filter object is truthy in JS). -/
structure UpdateUrlsOptions where
  hasFilter : Bool
  check404s : Bool
  checkAll : Bool
deriving DecidableEq, Repr

/-- Database operations observable by callers of `updateUrls`:
`preparePagesCollection` (a pages find plus bulk-write) runs first after
the guard; the remainder of the update is abstracted as one marker since
the claim concerns only the guard. -/
inductive UrlsDbOp where
  | pagesFind
  | pagesBulkWrite
  | restOfUpdate
deriving DecidableEq, Repr

/-- `UrlsService.updateUrls` up to its database accesses: the option
guard throws before anything else runs; when it passes, the database
work starts with `preparePagesCollection`. -/
def updateUrls (options : UpdateUrlsOptions) : Except String Unit × List UrlsDbOp :=
  if options.hasFilter && (options.check404s || options.checkAll) then
    (Except.error "Cannot use filter option with check404s or checkAll options.", [])
  else
    (Except.ok (), [UrlsDbOp.pagesFind, UrlsDbOp.pagesBulkWrite, UrlsDbOp.restOfUpdate])

/-! ### `DbUpdateService.updateAll` (C8) -/

/-- The sub-updates run by `updateAll`. -/
inductive SubUpdate where
  | updatePagesList
  | updateOverallMetrics
  | updateUxData
  | updateFeedback
  | updateCalldrivers
  | upsertOverallSearchTerms
  | updateAnnotations
  | updateGCTasksMappings
  | updateReports
  | updatePageMetrics
  | uploadProjectAttachments
  | uploadReportAttachments
  | createPagesFromPageList
  | upsertPageSearchTerms
  | updateActivityMap
  | updatePagesLang
  | updateUrls
deriving DecidableEq, Repr, Fintype

/-- The awaited stages of `updateAll` in program order: each stage (a
single awaited call or one `Promise.allSettled` group) completes before
the next stage starts. -/
def updateAllGroups : List (List SubUpdate) :=
  [[SubUpdate.updatePagesList],
   [SubUpdate.updateOverallMetrics, SubUpdate.updateUxData],
   [SubUpdate.updateFeedback],
   [SubUpdate.updateCalldrivers],
   [SubUpdate.upsertOverallSearchTerms, SubUpdate.updateAnnotations,
    SubUpdate.updateGCTasksMappings, SubUpdate.updateReports],
   [SubUpdate.updatePageMetrics, SubUpdate.uploadProjectAttachments,
    SubUpdate.uploadReportAttachments],
   [SubUpdate.createPagesFromPageList],
   [SubUpdate.upsertPageSearchTerms],
   [SubUpdate.updateActivityMap],
   [SubUpdate.updatePagesLang],
   [SubUpdate.updateUrls]]

/-- Stage index of a sub-update within `updateAllGroups`. -/
def stageOf (s : SubUpdate) : Nat :=
  updateAllGroups.findIdx (fun g => g.contains s)

/-- `updateAll` with a failure oracle.  Every sub-update after the first
is wrapped in `.catch` or absorbed by `Promise.allSettled`, so its
failure does not stop the sequence; `updatePagesList` is awaited bare,
so its failure propagates to the outer try/catch, which logs it and
returns.  Returns the stages that ran and whether `updateAll` threw. -/
def updateAll (fails : SubUpdate → Bool) : List (List SubUpdate) × Bool :=
  if fails SubUpdate.updatePagesList then ([[SubUpdate.updatePagesList]], false)
  else (updateAllGroups, false)

/-! ### `checkAndUpdateUrlData` queued url updates (C4) -/

/-- Value of a page metadata entry: a string, or a parsed date for
`dcterms.issued` / `dcterms.modified` (kept with its source text). -/
inductive MetaValue where
  | str (s : String)
  | date (s : String)
deriving DecidableEq, Repr

/-- A link extracted from the page's main element. -/
structure UrlLink where
  href : String
  text : String
deriving DecidableEq, Repr

/-- A urls collection document with the fields touched by
`checkAndUpdateUrlData` (`uid` stands for the Mongo `_id`). -/
structure UrlDocument where
  uid : Nat
  url : String
  title : String
  page : Option Nat
  last_checked : Option Int
  last_modified : Option Int
  is_404 : Option Bool
  latest_snapshot : Option String
  hashes : List UrlHashEntry
  links : List UrlLink
  all_titles : List String
  metadata : List (String × MetaValue)
  langHrefs : Option (List (String × String))
  redirect : Option String
deriving DecidableEq, Repr

/-- A queued `updateOne` operation on the urls collection: its `$set`
fields (absent means the field is not set) and `$addToSet` additions. -/
structure UrlUpdateOp where
  filter_id : Nat
  set_title : Option String := none
  set_page : Option Nat := none
  set_last_checked : Option Int := none
  set_last_modified : Option Int := none
  set_is_404 : Option Bool := none
  set_latest_snapshot : Option String := none
  set_metadata : Option (List (String × MetaValue)) := none
  set_links : Option (List UrlLink) := none
  set_langHrefs : Option (List (String × String)) := none
  set_redirect : Option String := none
  addToSet_hashes : Option UrlHashEntry := none
  addToSet_links : Option (List UrlLink) := none
  addToSet_all_titles : Option String := none
deriving DecidableEq, Repr

/-- `$addToSet` with a single value: append iff not already present. -/
def addToSetOne {α : Type} [DecidableEq α] (l : List α) : Option α → List α
  | none => l
  | some x => if x ∈ l then l else l ++ [x]

/-- `$addToSet` with `$each`: append each missing value in order. -/
def addToSetEach {α : Type} [DecidableEq α] (l : List α) : Option (List α) → List α
  | none => l
  | some xs => xs.foldl (fun acc x => if x ∈ acc then acc else acc ++ [x]) l

/-- Mongo semantics of applying a queued op to a matching document. -/
def applyUrlUpdate (doc : UrlDocument) (op : UrlUpdateOp) : UrlDocument :=
  if doc.uid ≠ op.filter_id then doc
  else
    { doc with
      title := op.set_title.getD doc.title,
      page := match op.set_page with | none => doc.page | some p => some p,
      last_checked := match op.set_last_checked with | none => doc.last_checked | some v => some v,
      last_modified := match op.set_last_modified with | none => doc.last_modified | some v => some v,
      is_404 := match op.set_is_404 with | none => doc.is_404 | some v => some v,
      latest_snapshot := match op.set_latest_snapshot with | none => doc.latest_snapshot | some v => some v,
      metadata := op.set_metadata.getD doc.metadata,
      links := addToSetEach (op.set_links.getD doc.links) op.addToSet_links,
      langHrefs := match op.set_langHrefs with | none => doc.langHrefs | some v => some v,
      redirect := match op.set_redirect with | none => doc.redirect | some v => some v,
      hashes := addToSetOne doc.hashes op.addToSet_hashes,
      all_titles := addToSetOne doc.all_titles op.addToSet_all_titles }

/-- Data about a fetched page after `processHtml`, as used to build the
queued url update. -/
structure FetchedPageData where
  title : String
  metadata : List (String × MetaValue)
  links : List UrlLink
  langHrefs : Option (List (String × String))
  redirect : Option String
deriving DecidableEq, Repr

/-- The op queued via `addToQueues` without a hash, used when the
computed hash is already stored: `$set` of title, last_checked,
metadata, links (and langHrefs/redirect when present) only. -/
def skipHashUpdateOp (collectionData : UrlDocument) (page : FetchedPageData)
    (date : Int) : UrlUpdateOp :=
  { filter_id := collectionData.uid,
    set_title := some page.title,
    set_last_checked := some date,
    set_metadata := some page.metadata,
    set_links := some page.links,
    set_langHrefs := page.langHrefs,
    set_redirect := page.redirect }

/-- The op queued via `addToQueues` with a hash, used when the hash is
new: page fields plus last_modified, `is_404: false` and
`latest_snapshot: hash` are `$set`, while the hash entry, the links and
the title are added with `$addToSet`. -/
def newHashUpdateOp (collectionData : UrlDocument) (page : FetchedPageData)
    (pageRef : Option Nat) (hash : String) (date : Int) : UrlUpdateOp :=
  { filter_id := collectionData.uid,
    set_title := some page.title,
    set_page := pageRef,
    set_metadata := some page.metadata,
    set_langHrefs := page.langHrefs,
    set_redirect := page.redirect,
    set_last_checked := some date,
    set_last_modified := some date,
    set_is_404 := some false,
    set_latest_snapshot := some hash,
    addToSet_hashes := some ⟨hash, date⟩,
    addToSet_links := some page.links,
    addToSet_all_titles := some page.title }

/-- The hash-dependent branch of `checkAndUpdateUrlData`: the skip
update when the document's hashes already contain the computed hash,
otherwise the new-hash update. -/
def checkAndUpdateUrlDataOp (collectionData : UrlDocument) (page : FetchedPageData)
    (pageRef : Option Nat) (hash : String) (date : Int) : UrlUpdateOp :=
  if (collectionData.hashes.map UrlHashEntry.hash).contains hash then
    skipHashUpdateOp collectionData page date
  else
    newHashUpdateOp collectionData page pageRef hash date

/-! ### `processHtml` (C5)

`processHtml` runs on the cheerio-parsed response body.  Parsing itself
is external (cheerio); the embedding takes the parsed node forest as
input and models the selector queries and string transformations the
function performs after `$('script, meta[property="fb:pages"]').remove()`. -/

/-- A parsed HTML node: an element with tag, attributes and children,
or a text node. -/
inductive HtmlNode where
  | elem (tag : String) (attrs : List (String × String)) (children : List HtmlNode)
  | text (s : String)

/-- The value of an attribute, when present. -/
def attrOf (attrs : List (String × String)) (key : String) : Option String :=
  (attrs.find? (fun a => a.1 = key)).map (fun a => a.2)

/-- A JS-truthy attribute value: present and non-empty. -/
def truthyAttr (attrs : List (String × String)) (key : String) : Option String :=
  match attrOf attrs key with
  | some s => if s = "" then none else some s
  | none => none

/-- Whether an element matches the removal selector
`script, meta[property="fb:pages"]`. -/
def isRemovedBySelector (tag : String) (attrs : List (String × String)) : Bool :=
  tag = "script" || (tag = "meta" && attrOf attrs "property" == some "fb:pages")

/-- The `.remove()` pass: drop every matching element (with its
subtree) anywhere in the forest. -/
def stripNodes : List HtmlNode → List HtmlNode
  | [] => []
  | HtmlNode.text s :: rest => HtmlNode.text s :: stripNodes rest
  | HtmlNode.elem t a c :: rest =>
    if isRemovedBySelector t a then stripNodes rest
    else HtmlNode.elem t a (stripNodes c) :: stripNodes rest

/-- Serialization of an attribute list. -/
def renderAttrs (attrs : List (String × String)) : String :=
  attrs.foldl (fun acc a => acc ++ " " ++ a.1 ++ "=\x22" ++ a.2 ++ "\x22") ""

/-- `$.html()` / `.html()`: serialize a forest back to HTML text. -/
def renderNodes : List HtmlNode → String
  | [] => ""
  | HtmlNode.text s :: rest => s ++ renderNodes rest
  | HtmlNode.elem t a c :: rest =>
    "<" ++ t ++ renderAttrs a ++ ">" ++ renderNodes c ++ "</" ++ t ++ ">" ++ renderNodes rest

/-- The children of the first `main` element in document order
(`$('main')` selects in pre-order). -/
def findMainChildren : List HtmlNode → Option (List HtmlNode)
  | [] => none
  | HtmlNode.text _ :: rest => findMainChildren rest
  | HtmlNode.elem t _ c :: rest =>
    if t = "main" then some c
    else
      match findMainChildren c with
      | some found => some found
      | none => findMainChildren rest

/-- `$('main').html() || ''`: inner HTML of the first main element. -/
def mainInnerHtml (doc : List HtmlNode) : String :=
  match findMainChildren doc with
  | some c => renderNodes c
  | none => ""

/-- `.text()` of a subtree: concatenated text nodes. -/
def textOfNodes : List HtmlNode → String
  | [] => ""
  | HtmlNode.text s :: rest => s ++ textOfNodes rest
  | HtmlNode.elem _ _ c :: rest => textOfNodes c ++ textOfNodes rest

/-- `$('title').text()`: concatenated text of every title element in
document order. -/
def titleTextOfNodes : List HtmlNode → String
  | [] => ""
  | HtmlNode.text _ :: rest => titleTextOfNodes rest
  | HtmlNode.elem t _ c :: rest =>
    (if t = "title" then textOfNodes c else "") ++ titleTextOfNodes c ++ titleTextOfNodes rest

/-- Whether a character list starts with a `\d{4}-\d{2}-\d{2}` match. -/
def dateLikeAt : List Char → Bool
  | a :: b :: c :: d :: e :: f :: g :: h :: i :: j :: _ =>
    a.isDigit && b.isDigit && c.isDigit && d.isDigit && e = '-' &&
      f.isDigit && g.isDigit && h = '-' && i.isDigit && j.isDigit
  | _ => false

/-- `/\d{4}-\d{2}-\d{2}/.test(s)`: an unanchored search. -/
def hasDateLike : List Char → Bool
  | [] => false
  | c :: rest => dateLikeAt (c :: rest) || hasDateLike rest

/-- One entry of the `meta[name], meta[property]` selection after the
source's filter: requires truthy `name` and `content` attributes,
excludes the two boilerplate contents, and parses a date for
`dcterms.issued` / `dcterms.modified` contents matching the date
pattern. -/
def metaEntryOf (tag : String) (attrs : List (String × String)) : List (String × MetaValue) :=
  if tag = "meta" && ((attrOf attrs "name").isSome || (attrOf attrs "property").isSome) then
    match truthyAttr attrs "name", truthyAttr attrs "content" with
    | some n, some c =>
      if c = "IE=edge" || c = "width=device-width,initial-scale=1" then []
      else if (n = "dcterms.issued" || n = "dcterms.modified") && hasDateLike c.data then
        [(n, MetaValue.date c)]
      else [(n, MetaValue.str c)]
    | _, _ => []
  else []

/-- All filtered meta entries of the document, in document order. -/
def metaEntries : List HtmlNode → List (String × MetaValue)
  | [] => []
  | HtmlNode.text _ :: rest => metaEntries rest
  | HtmlNode.elem t a c :: rest => metaEntryOf t a ++ metaEntries c ++ metaEntries rest

/-- `Object.fromEntries`: key order is first occurrence, value is the
last one given for the key. -/
def upsertEntry {V : Type} (acc : List (String × V)) (k : String) (v : V) :
    List (String × V) :=
  if (acc.map Prod.fst).contains k then
    acc.map (fun e => if e.1 = k then (k, v) else e)
  else acc ++ [(k, v)]

/-- `Object.fromEntries` over an entry list. -/
def fromEntries {V : Type} (l : List (String × V)) : List (String × V) :=
  l.foldl (fun acc e => upsertEntry acc e.1 e.2) []

/-- The `a[href]` anchors of a forest: `(href, text)` in document
order. -/
def collectAnchors : List HtmlNode → List (String × String)
  | [] => []
  | HtmlNode.text _ :: rest => collectAnchors rest
  | HtmlNode.elem t a c :: rest =>
    (if t = "a" then
      match attrOf a "href" with
      | some href => [(href, textOfNodes c)]
      | none => []
    else []) ++ collectAnchors c ++ collectAnchors rest

/-- `$('main a[href]')`: the anchors inside `main` elements. -/
def anchorsInMains : List HtmlNode → List (String × String)
  | [] => []
  | HtmlNode.text _ :: rest => anchorsInMains rest
  | HtmlNode.elem t _ c :: rest =>
    (if t = "main" then collectAnchors c else anchorsInMains c) ++ anchorsInMains rest

/-- `s.replace(pat, repl)` with a string pattern: replace the first
occurrence only. -/
def replaceOnceList (pat repl : List Char) : List Char → List Char
  | [] => []
  | c :: rest =>
    if pat.isPrefixOf (c :: rest) then repl ++ (c :: rest).drop pat.length
    else c :: replaceOnceList pat repl rest

/-- String version of `replaceOnceList`. -/
def replaceOnce (s pat repl : String) : String :=
  ⟨replaceOnceList pat.data repl.data s.data⟩

/-- `.replace(/^\/(en|fr)\//i, 'www.canada.ca/$1/')`: rewrite a
root-relative language prefix, keeping the original casing. -/
def langPrefixRewrite (s : String) : String :=
  match s.data with
  | '/' :: a :: b :: '/' :: rest =>
    if (a.toLower = 'e' && b.toLower = 'n') || (a.toLower = 'f' && b.toLower = 'r') then
      ⟨("www.canada.ca/").data ++ a :: b :: '/' :: rest⟩
    else s
  | _ => s

/-- The link href transformation of `processHtml`. -/
def transformHref (href : String) : String :=
  langPrefixRewrite (replaceOnce href "https://" "")

/-- Drop trailing whitespace of a character list. -/
def trimEndWs (l : List Char) : List Char :=
  (l.reverse.dropWhile (fun c => c.isWhitespace)).reverse

/-- `.replace(/ - Canada\.ca\s*$/, '')`: drop one trailing
` - Canada.ca` (and the whitespace after it); no change when the suffix
is not there. -/
def stripCanadaSuffix (s : String) : String :=
  if (" - Canada.ca").data.isSuffixOf (trimEndWs s.data) then
    ⟨(trimEndWs s.data).take ((trimEndWs s.data).length - 12)⟩
  else s

/-- `.replace(/[\t\n\s]+/g, ' ')`: collapse every whitespace run to a
single space. -/
def collapseWs : List Char → List Char
  | [] => []
  | c :: rest =>
    if c.isWhitespace then
      ' ' :: collapseWs (rest.dropWhile (fun c2 => c2.isWhitespace))
    else c :: collapseWs rest
termination_by l => l.length
decreasing_by
  · have h := (List.dropWhile_sublist (l := rest) (p := fun c2 => c2.isWhitespace)).length_le
    simp only [List.length_cons]
    omega
  · simp

/-- JS `String.prototype.trim`. -/
def jsTrim (l : List Char) : List Char :=
  ((l.dropWhile (fun c => c.isWhitespace)).reverse.dropWhile (fun c => c.isWhitespace)).reverse

/-- The title transformation of `processHtml`: strip the trailing
` - Canada.ca`, collapse whitespace runs, trim. -/
def transformTitle (s : String) : String :=
  ⟨jsTrim (collapseWs (stripCanadaSuffix s).data)⟩

/-- `link[rel="alternate"][hreflang]` entries with truthy `hreflang`
and `href`, the href with its `https://` prefix dropped. -/
def langHrefEntries : List HtmlNode → List (String × String)
  | [] => []
  | HtmlNode.text _ :: rest => langHrefEntries rest
  | HtmlNode.elem t a c :: rest =>
    (if t = "link" && attrOf a "rel" == some "alternate" && (attrOf a "hreflang").isSome then
      match truthyAttr a "hreflang", truthyAttr a "href" with
      | some hl, some hr => [(hl, replaceOnce hr "https://" "")]
      | _, _ => []
    else []) ++ langHrefEntries c ++ langHrefEntries rest

/-- The result record of `processHtml`. -/
structure ProcessedHtml where
  title : String
  body : String
  metadata : List (String × MetaValue)
  links : List UrlLink
  langHrefs : List (String × String)
deriving DecidableEq, Repr

/-- `processHtml`: remove scripts (and the fb:pages meta), return
nothing when the first main element's HTML is empty or whitespace-only,
otherwise extract title, serialized body, metadata, links and
langHrefs. -/
def processHtml (doc : List HtmlNode) : Option ProcessedHtml :=
  let stripped := stripNodes doc
  if jsTrim (mainInnerHtml stripped).data = [] then none
  else
    some
      { title := transformTitle (titleTextOfNodes stripped),
        body := renderNodes stripped,
        metadata := fromEntries (metaEntries stripped),
        links := (anchorsInMains stripped).map (fun p => UrlLink.mk (transformHref p.1) p.2),
        langHrefs := fromEntries (langHrefEntries stripped) }

/-- `md5Hash(processedHtml.body)` in `checkAndUpdateUrlData`: the
content hash is computed from the processed body, not the raw response
body.  The md5 function itself is external. -/
def contentHash (md5 : String → String) (doc : List HtmlNode) : Option String :=
  (processHtml doc).map (fun r => md5 r.body)

/-- Script detector used to state the removal property. -/
def containsScript : List HtmlNode → Bool
  | [] => false
  | HtmlNode.text _ :: rest => containsScript rest
  | HtmlNode.elem t _ c :: rest => t = "script" || containsScript c || containsScript rest

/-- Relation for collapsed whitespace: two adjacent characters are
never both whitespace. -/
def wsRel (a b : Char) : Prop :=
  ¬(a.isWhitespace = true ∧ b.isWhitespace = true)

/-- A concrete parsed page: a title with the Canada.ca suffix, a script
in the head, and a main element with text and a link. -/
def htmlDocExample : List HtmlNode :=
  [HtmlNode.elem "html" []
    [HtmlNode.elem "head" []
      [HtmlNode.elem "title" [] [HtmlNode.text "My  Page - Canada.ca"],
        HtmlNode.elem "script" [] [HtmlNode.text "var x = 1;"]],
      HtmlNode.elem "body" []
        [HtmlNode.elem "main" []
          [HtmlNode.text "Hello",
            HtmlNode.elem "a" [("href", "https://www.canada.ca/en/a.html")]
              [HtmlNode.text "link"]]]]]

/-! ### Snapshot upload to blob storage (C6) -/

/-- A stored blob: its content and metadata (`urls`, `date`). -/
structure BlobEntry where
  content : String
  urls : List String
  date : Int
deriving DecidableEq, Repr

/-- Blob storage keyed by content hash. -/
abbrev BlobStore : Type := List (String × BlobEntry)

/-- `blob(hash).exists()` / `getProperties()`: the first entry stored
under the hash. -/
def blobLookup : BlobStore → String → Option BlobEntry
  | [], _ => none
  | e :: rest, hash => if e.1 = hash then some e.2 else blobLookup rest hash

/-- `setMetadata({ ..., urls })` on the blob stored under `hash`. -/
def blobSetMeta (store : BlobStore) (hash : String) (urls : List String) : BlobStore :=
  store.map (fun e => if e.1 = hash then (e.1, { e.2 with urls := urls }) else e)

/-- The snapshot-upload section of `checkAndUpdateUrlData` for one
fetched page: if a blob already exists under the hash, add the url to
its metadata urls when missing; otherwise upload the minified processed
body - and when minifying fails (malformed html), upload the processed
body as-is (the source wraps minify+upload in a try/catch). -/
def storeSnapshotBlob (minify : String → Except Unit String) (store : BlobStore)
    (url hash body : String) (date : Int) : BlobStore :=
  match blobLookup store hash with
  | some entry =>
    if url ∈ entry.urls then store
    else blobSetMeta store hash (entry.urls ++ [url])
  | none =>
    match minify body with
    | Except.ok minified => store ++ [(hash, ⟨minified, [url], date⟩)]
    | Except.error _ => store ++ [(hash, ⟨body, [url], date⟩)]

/-- A concrete url document whose hashes contain `"h1"`. -/
def urlDocExample : UrlDocument :=
  { uid := 5, url := "www.canada.ca/en/x.html", title := "Old", page := some 9,
    last_checked := some 10, last_modified := some 10, is_404 := some false,
    latest_snapshot := some "h1", hashes := [⟨"h0", 1⟩, ⟨"h1", 10⟩],
    links := [], all_titles := ["Old"], metadata := [], langHrefs := none,
    redirect := none }

/-- A concrete fetched-page payload. -/
def fetchedPageExample : FetchedPageData :=
  { title := "New Title", metadata := [("description", MetaValue.str "d")],
    links := [⟨"www.canada.ca/en/y.html", "y"⟩], langHrefs := none, redirect := none }

/-- Concrete removal oracle: the round for hash `b` fails with only the
`urls` deletion confirmed; every other round succeeds. -/
def oracleExample : RemovalOracle :=
  fun h => if h = "b" then some (fun s => s == Store.urls) else none

/-- Concrete scores for one url: three snapshots with distinct hashes,
equal readability metrics, dates ascending (a single equivalence run). -/
def scoresExample : List RDoc :=
  [⟨1, "u", "a", 1, 10, 100⟩, ⟨2, "u", "b", 2, 10, 100⟩, ⟨3, "u", "c", 3, 10, 100⟩]

/-- A concrete readability collection containing one duplicated
`(url, hash)` pair, for exercising the duplicate-deletion pre-pass. -/
def readabilityExample : List RDoc :=
  [⟨1, "u", "a", 1, 10, 100⟩, ⟨2, "u", "a", 2, 10, 100⟩, ⟨3, "u", "b", 3, 10, 100⟩]

/-- The result of the pre-pass on `readabilityExample`: the later
duplicate of `(u, a)` is deleted. -/
def dedupedExample : List RDoc :=
  [⟨1, "u", "a", 1, 10, 100⟩, ⟨3, "u", "b", 3, 10, 100⟩]

/-- A concrete `urls` collection: one document with seven hashes. -/
def urlsExample : List UrlAggDoc :=
  [⟨"u", [⟨"a", 1⟩, ⟨"b", 2⟩, ⟨"c", 3⟩, ⟨"d", 4⟩, ⟨"e", 5⟩, ⟨"f", 6⟩, ⟨"g", 7⟩]⟩]

theorem insSorted_perm {α : Type} (le : α → α → Bool) (x : α) (l : List α) :
    List.Perm (insSorted le x l) (x :: l) := by
  induction l with
  | nil => simp [insSorted]
  | cons y ys ih =>
    simp only [insSorted]
    split
    · exact (ih.cons y).trans (List.Perm.swap x y ys)
    · exact List.Perm.refl _

theorem sortBy_perm {α : Type} (le : α → α → Bool) (l : List α) :
    List.Perm (sortBy le l) l := by
  suffices h : ∀ acc, List.Perm (l.foldl (fun acc x => insSorted le x acc) acc) (l ++ acc) by
    simpa using h []
  induction l with
  | nil => intro acc; simp
  | cons y ys ih =>
    intro acc
    simp only [List.foldl_cons, List.cons_append]
    refine (ih (insSorted le y acc)).trans ?_
    refine (List.Perm.append_left ys (insSorted_perm le y acc)).trans ?_
    exact List.perm_middle

theorem mem_sortBy {α : Type} (le : α → α → Bool) (l : List α) (x : α) :
    x ∈ sortBy le l ↔ x ∈ l :=
  (sortBy_perm le l).mem_iff


theorem spliceChunks_flatten {α : Type} (n : Nat) (l : List α) :
    (spliceChunks n l).flatten = l := by
  induction l using spliceChunks.induct n with
  | case1 => simp [spliceChunks]
  | case2 x xs ih =>
    simp only [spliceChunks, List.flatten_cons, ih, List.cons_append]
    simp [List.take_append_drop]

theorem spliceChunks_length_le {α : Type} (n : Nat) (hn : 1 ≤ n) (l : List α) :
    ∀ c ∈ spliceChunks n l, c.length ≤ n := by
  induction l using spliceChunks.induct n with
  | case1 => simp [spliceChunks]
  | case2 x xs ih =>
    intro c hc
    simp only [spliceChunks, List.mem_cons] at hc
    rcases hc with rfl | hc
    · simp only [List.length_cons, List.length_take]
      omega
    · exact ih c hc

theorem spliceChunks_ne_nil {α : Type} (n : Nat) (l : List α) :
    ∀ c ∈ spliceChunks n l, c ≠ [] := by
  induction l using spliceChunks.induct n with
  | case1 => simp [spliceChunks]
  | case2 x xs ih =>
    intro c hc
    simp only [spliceChunks, List.mem_cons] at hc
    rcases hc with rfl | hc
    · simp
    · exact ih c hc

theorem spliceChunks_count {α : Type} (n : Nat) (hn : 1 ≤ n) (l : List α) :
    (spliceChunks n l).length = (l.length + n - 1) / n := by
  induction l using spliceChunks.induct n with
  | case1 =>
    simp only [spliceChunks, List.length_nil, Nat.zero_add]
    rw [Nat.div_eq_of_lt (by omega)]
  | case2 x xs ih =>
    simp only [spliceChunks, List.length_cons, ih, List.length_drop]
    have hxn : xs.length + 1 + n - 1 = xs.length + n := by omega
    rw [hxn, Nat.add_div_right _ (by omega)]
    rcases le_or_lt xs.length (n - 1) with hle | hlt
    · have h1 : xs.length - (n - 1) + n - 1 = n - 1 := by omega
      rw [h1, Nat.div_eq_of_lt (by omega), Nat.div_eq_of_lt (by omega)]
    · have h1 : xs.length - (n - 1) + n - 1 = xs.length := by omega
      rw [h1]


theorem mem_addSet (l : List String) (x h : String) :
    h ∈ addSet l x ↔ h ∈ l ∨ h = x := by
  simp only [addSet]
  split
  · rename_i hx
    constructor
    · exact Or.inl
    · rintro (hl | rfl)
      · exact hl
      · exact hx
  · simp [List.mem_append]

theorem mem_foldl_addSet (hs : List String) (init : List String) (h : String) :
    h ∈ hs.foldl addSet init ↔ h ∈ init ∨ h ∈ hs := by
  induction hs generalizing init with
  | nil => simp
  | cons x xs ih =>
    simp only [List.foldl_cons, ih, mem_addSet, List.mem_cons]
    tauto

theorem not_shouldSkip_iff (st : ScanState) (h : String) :
    shouldSkip st h = false ↔ h ∉ st.redundantHashes ∧ h ∉ st.hashesToKeep := by
  simp [shouldSkip]

theorem consumeRun_eq (r : RDoc) (l : List RDoc) (st : ScanState) (p : RDoc) :
    consumeRun st r p l =
      ({ st with redundantHashes := List.foldl addSet st.redundantHashes ((p :: l.takeWhile (isSame r)).dropLast.map RDoc.hash) },
        l.dropWhile (isSame r)) := by
  induction l generalizing st p with
  | nil => simp [consumeRun]
  | cons s tl ih =>
    simp only [consumeRun]
    split
    · rename_i hsame
      rw [ih]
      simp [List.takeWhile_cons, List.dropWhile_cons, hsame]
    · rename_i hsame
      simp only [Bool.not_eq_true] at hsame
      simp [List.takeWhile_cons, List.dropWhile_cons, hsame]

theorem classifyScores_inRun (r : RDoc) (l : List RDoc) (st : ScanState) (p : RDoc) :
    classifyScores st (some r) (some p) l =
      classifyScores (consumeRun st r p l).1 none none (consumeRun st r p l).2 := by
  induction l generalizing st p with
  | nil => simp [consumeRun, classifyScores]
  | cons s tl ih =>
    rcases hsame : isSame r s with hfalse | htrue
    · simp only [classifyScores, consumeRun, hsame]
      rfl
    · simp only [classifyScores, consumeRun, hsame, if_true]
      exact ih _ _

theorem classifyScores_runStart (r : RDoc) (l : List RDoc) (st : ScanState) :
    classifyScores st (some r) none l =
      classifyScores
        { st with redundantHashes := List.foldl addSet st.redundantHashes ((l.takeWhile (isSame r)).dropLast.map RDoc.hash) }
        none none (l.dropWhile (isSame r)) := by
  cases l with
  | nil => simp [classifyScores]
  | cons s tl =>
    rcases hsame : isSame r s with hfalse | htrue
    · simp only [classifyScores, hsame, List.takeWhile_cons, List.dropWhile_cons,
        Bool.false_eq_true, if_false]
      rfl
    · simp only [classifyScores, hsame, if_true]
      rw [classifyScores_inRun, consumeRun_eq]
      simp [List.takeWhile_cons, List.dropWhile_cons, hsame]

theorem classifyScores_eq_runs (l : List RDoc) (st : ScanState) :
    classifyScores st none none l =
      { redundantHashes := (runRedundant l).foldl addSet st.redundantHashes,
        hashesToKeep := (runHeads l).foldl addSet st.hashesToKeep } := by
  induction l using equivalenceRuns.induct generalizing st with
  | case1 => simp [classifyScores, runRedundant, runHeads, equivalenceRuns]
  | case2 r rest ih =>
    have hstep : classifyScores st none none (r :: rest) =
        classifyScores { st with hashesToKeep := addSet st.hashesToKeep r.hash }
          (some r) none rest := by
      simp [classifyScores]
    rw [hstep, classifyScores_runStart, ih]
    simp [runRedundant, runHeads, equivalenceRuns, List.foldl_append]

theorem equivalenceRuns_flatten (l : List RDoc) :
    (equivalenceRuns l).flatMap (fun rt => rt.1 :: rt.2) = l := by
  induction l using equivalenceRuns.induct with
  | case1 => simp [equivalenceRuns]
  | case2 r rest ih =>
    simp only [equivalenceRuns, List.flatMap_cons, ih]
    simp [List.takeWhile_append_dropWhile]

theorem equivalenceRuns_decomp (l : List RDoc) :
    ∀ rt ∈ equivalenceRuns l, ∃ l1 l2, l = l1 ++ (rt.1 :: rt.2) ++ l2 ∧
      ∀ q ∈ rt.2, isSame rt.1 q = true := by
  induction l using equivalenceRuns.induct with
  | case1 => simp [equivalenceRuns]
  | case2 r rest ih =>
    intro rt hrt
    simp only [equivalenceRuns, List.mem_cons] at hrt
    rcases hrt with rfl | hrt
    · refine ⟨[], rest.dropWhile (isSame r), ?_, ?_⟩
      · simp [List.takeWhile_append_dropWhile]
      · intro q hq
        exact List.mem_takeWhile_imp hq
    · obtain ⟨l1, l2, heq, hall⟩ := ih rt hrt
      refine ⟨r :: rest.takeWhile (isSame r) ++ l1, l2, ?_, hall⟩
      have h0 : r :: rest =
          r :: (rest.takeWhile (isSame r) ++ (l1 ++ (rt.1 :: rt.2) ++ l2)) := by
        rw [← heq, List.takeWhile_append_dropWhile]
      rw [h0]
      simp [List.append_assoc]

theorem runRedundant_subset (l : List RDoc) :
    ∀ h ∈ runRedundant l, h ∈ l.map RDoc.hash := by
  intro h hh
  simp only [runRedundant, List.mem_flatMap] at hh
  obtain ⟨rt, hrt, hmem⟩ := hh
  obtain ⟨l1, l2, heq, -⟩ := equivalenceRuns_decomp l rt hrt
  simp only [List.mem_map] at hmem
  obtain ⟨p, hp, rfl⟩ := hmem
  have hp2 : p ∈ rt.2 := (List.dropLast_sublist rt.2).subset hp
  refine List.mem_map_of_mem RDoc.hash ?_
  rw [heq]
  simp [hp2]

theorem runHeads_subset (l : List RDoc) :
    ∀ h ∈ runHeads l, h ∈ l.map RDoc.hash := by
  intro h hh
  simp only [runHeads, List.mem_map] at hh
  obtain ⟨rt, hrt, rfl⟩ := hh
  obtain ⟨l1, l2, heq, -⟩ := equivalenceRuns_decomp l rt hrt
  refine List.mem_map_of_mem RDoc.hash ?_
  rw [heq]
  simp

theorem runHeads_not_redundant (l : List RDoc) (hnd : (l.map RDoc.hash).Nodup) :
    ∀ h ∈ runHeads l, h ∉ runRedundant l := by
  induction l using equivalenceRuns.induct with
  | case1 => simp [runHeads, equivalenceRuns]
  | case2 r rest ih =>
    intro h hh hred
    have hsplit : rest = rest.takeWhile (isSame r) ++ rest.dropWhile (isSame r) :=
      (List.takeWhile_append_dropWhile _ _).symm
    have hndrest : (rest.map RDoc.hash).Nodup := (List.nodup_cons.mp (by simpa using hnd)).2
    have hrhash : r.hash ∉ rest.map RDoc.hash := (List.nodup_cons.mp (by simpa using hnd)).1
    have hnddrop : ((rest.dropWhile (isSame r)).map RDoc.hash).Nodup :=
      hndrest.sublist ((List.dropWhile_sublist (l := rest) (p := isSame r)).map RDoc.hash)
    have hdisjoint : ∀ x, x ∈ (rest.takeWhile (isSame r)).map RDoc.hash →
        x ∉ (rest.dropWhile (isSame r)).map RDoc.hash := by
      intro x hx1 hx2
      have := hndrest
      rw [hsplit, List.map_append] at this
      exact (List.disjoint_of_nodup_append this) hx1 hx2
    simp only [runHeads, equivalenceRuns, List.map_cons, List.mem_cons] at hh
    simp only [runRedundant, equivalenceRuns, List.flatMap_cons, List.mem_append] at hred
    have hsubtake : ∀ x, x ∈ ((rest.takeWhile (isSame r)).dropLast.map RDoc.hash) →
        x ∈ rest.map RDoc.hash := by
      intro x hx
      refine (List.Sublist.map RDoc.hash ?_).subset hx
      exact (List.dropLast_sublist _).trans (List.takeWhile_sublist _)
    rcases hh with rfl | hh
    · rcases hred with hred | hred
      · exact hrhash (hsubtake _ hred)
      · exact hrhash ((List.Sublist.map RDoc.hash (List.dropWhile_sublist _)).subset
          (runRedundant_subset _ _ hred))
    · rcases hred with hred | hred
      · have hhdrop : h ∈ (rest.dropWhile (isSame r)).map RDoc.hash :=
          runHeads_subset _ _ hh
        exact hdisjoint h (by
          refine (List.Sublist.map RDoc.hash (List.dropLast_sublist _)).subset hred) hhdrop
      · exact ih hnddrop h hh hred

theorem classify_preserves_disjoint (l : List RDoc) (st : ScanState)
    (hdisj : ∀ h ∈ st.redundantHashes, h ∉ st.hashesToKeep)
    (hfresh : ∀ d ∈ l, shouldSkip st d.hash = false)
    (hnd : (l.map RDoc.hash).Nodup) :
    ∀ h ∈ (classifyScores st none none l).redundantHashes,
      h ∉ (classifyScores st none none l).hashesToKeep := by
  rw [classifyScores_eq_runs]
  intro h hred hkeep
  simp only [mem_foldl_addSet] at hred hkeep
  have hfresh2 : ∀ x, x ∈ l.map RDoc.hash → x ∉ st.redundantHashes ∧ x ∉ st.hashesToKeep := by
    intro x hx
    simp only [List.mem_map] at hx
    obtain ⟨d, hd, rfl⟩ := hx
    exact (not_shouldSkip_iff st d.hash).mp (hfresh d hd)
  rcases hred with hred | hred
  · rcases hkeep with hkeep | hkeep
    · exact hdisj h hred hkeep
    · exact (hfresh2 h (runHeads_subset l h hkeep)).1 hred
  · rcases hkeep with hkeep | hkeep
    · exact (hfresh2 h (runRedundant_subset l h hred)).2 hkeep
    · exact runHeads_not_redundant l hnd h hkeep hred

theorem processUrlDoc_preserves_disjoint (readability : List RDoc) (st : ScanState)
    (doc : UrlAggDoc)
    (hnd : ((scoresForUrl readability doc.url).map RDoc.hash).Nodup)
    (hdisj : ∀ h ∈ st.redundantHashes, h ∉ st.hashesToKeep) :
    ∀ h ∈ (processUrlDoc readability st doc).redundantHashes,
      h ∉ (processUrlDoc readability st doc).hashesToKeep := by
  unfold processUrlDoc
  dsimp only
  split
  · exact hdisj
  · split
    · exact hdisj
    · set scores := sortBy dateLe
        ((scoresForUrl readability doc.url).filter (fun d => ! shouldSkip st d.hash)) with hscores
      refine classify_preserves_disjoint scores st hdisj ?_ ?_
      · intro d hd
        have hd2 := (mem_sortBy _ _ d).mp hd
        have := List.of_mem_filter hd2
        simpa using this
      · have hperm : List.Perm (scores.map RDoc.hash)
            (((scoresForUrl readability doc.url).filter (fun d => ! shouldSkip st d.hash)).map RDoc.hash) :=
          (sortBy_perm _ _).map RDoc.hash
        refine hperm.nodup_iff.mpr ?_
        exact hnd.sublist ((List.filter_sublist _).map RDoc.hash)

theorem scanPhase_disjoint (urls : List UrlAggDoc) (readability : List RDoc)
    (hnd : ∀ url, ((scoresForUrl readability url).map RDoc.hash).Nodup) :
    ∀ h ∈ (scanPhase urls readability).redundantHashes,
      h ∉ (scanPhase urls readability).hashesToKeep := by
  unfold scanPhase
  have hgen : ∀ (docs : List UrlAggDoc) (st : ScanState),
      (∀ h ∈ st.redundantHashes, h ∉ st.hashesToKeep) →
      ∀ h ∈ (docs.foldl (processUrlDoc readability) st).redundantHashes,
        h ∉ (docs.foldl (processUrlDoc readability) st).hashesToKeep := by
    intro docs
    induction docs with
    | nil => intro st hst; exact hst
    | cons d ds ih =>
      intro st hst
      exact ih _ (processUrlDoc_preserves_disjoint readability st d (hnd d.url) hst)
  exact hgen _ _ (by simp)

theorem one_lt_length_of_two_mem {α : Type} {l : List α} {a b : α}
    (ha : a ∈ l) (hb : b ∈ l) (hne : a ≠ b) : 1 < l.length := by
  obtain ⟨s, t, rfl⟩ := List.append_of_mem ha
  have hb2 : b ∈ s ∨ b ∈ t := by
    rcases List.mem_append.mp hb with h | h
    · exact Or.inl h
    · rcases List.mem_cons.mp h with rfl | h
      · exact absurd rfl hne.symm
      · exact Or.inr h
  rcases hb2 with h | h
  · have := List.length_pos_of_mem h
    simp only [List.length_append, List.length_cons]
    omega
  · have := List.length_pos_of_mem h
    simp only [List.length_append, List.length_cons]
    omega

theorem dedupReadability_ok_eq (docs R : List RDoc)
    (hok : dedupReadability docs = Except.ok R) :
    R = docs.filter (fun d => ! (dedupDeletedIds docs).contains d.rid) := by
  unfold dedupReadability at hok
  split at hok
  · cases hok
    rfl
  · cases hok

/-- After the duplicate-deletion pre-pass, every `(url, hash)` pair
identifies at most one readability document. -/
theorem dedup_key_inj (docs R : List RDoc)
    (hok : dedupReadability docs = Except.ok R) :
    ∀ a ∈ R, ∀ b ∈ R, rKey a = rKey b → a = b := by
  have hReq := dedupReadability_ok_eq docs R hok
  intro a ha b hb hkey
  by_contra hne
  subst hReq
  have hadocs : a ∈ docs := List.mem_of_mem_filter ha
  have hbdocs : b ∈ docs := List.mem_of_mem_filter hb
  have hadel : a.rid ∉ dedupDeletedIds docs := by
    have := List.of_mem_filter ha
    simpa using this
  have hbdel : b.rid ∉ dedupDeletedIds docs := by
    have := List.of_mem_filter hb
    simpa using this
  have hag : a ∈ groupFor docs (rKey a) := by
    simp [groupFor, List.mem_filter, hadocs]
  have hbg : b ∈ groupFor docs (rKey a) := by
    simp [groupFor, List.mem_filter, hbdocs, ← hkey]
  have hlen : 1 < (groupFor docs (rKey a)).length :=
    one_lt_length_of_two_mem hag hbg hne
  have hkmem : rKey a ∈ dupKeys docs := by
    simp only [dupKeys, List.mem_filter, List.mem_dedup]
    exact ⟨List.mem_map_of_mem rKey hadocs, by simpa using hlen⟩
  have hmemdel : ∀ x ∈ (sortBy dateLe (groupFor docs (rKey a))).drop 1,
      x.rid ∈ dedupDeletedIds docs := by
    intro x hx
    simp only [dedupDeletedIds, List.mem_flatMap]
    exact ⟨rKey a, hkmem, List.mem_map_of_mem RDoc.rid hx⟩
  have hasort : a ∈ sortBy dateLe (groupFor docs (rKey a)) := (mem_sortBy _ _ a).mpr hag
  have hbsort : b ∈ sortBy dateLe (groupFor docs (rKey a)) := (mem_sortBy _ _ b).mpr hbg
  cases hs : sortBy dateLe (groupFor docs (rKey a)) with
  | nil => rw [hs] at hasort; cases hasort
  | cons hd tl =>
    rw [hs] at hasort hbsort
    have hdrop : (sortBy dateLe (groupFor docs (rKey a))).drop 1 = tl := by
      rw [hs]; rfl
    have ha2 : a = hd := by
      rcases List.mem_cons.mp hasort with h | h
      · exact h
      · exact absurd (hmemdel a (by rw [hdrop]; exact h)) hadel
    have hb2 : b = hd := by
      rcases List.mem_cons.mp hbsort with h | h
      · exact h
      · exact absurd (hmemdel b (by rw [hdrop]; exact h)) hbdel
    exact hne (ha2.trans hb2.symm)

/-- After the pre-pass, the hashes of each url's readability documents
are pairwise distinct. -/
theorem dedup_scores_nodup (docs R : List RDoc)
    (hok : dedupReadability docs = Except.ok R)
    (hids : (docs.map RDoc.rid).Nodup) :
    ∀ url, ((scoresForUrl R url).map RDoc.hash).Nodup := by
  intro url
  have hinj := dedup_key_inj docs R hok
  have hdocsnd : docs.Nodup := hids.of_map
  have hRnd : R.Nodup := by
    rw [dedupReadability_ok_eq docs R hok]
    exact hdocsnd.filter _
  refine ((hRnd.filter _).map_on ?_)
  intro x hx y hy hxy
  have hxurl : x.url = url := by
    have := List.of_mem_filter hx
    simpa using this
  have hyurl : y.url = url := by
    have := List.of_mem_filter hy
    simpa using this
  refine hinj x (List.mem_of_mem_filter hx) y (List.mem_of_mem_filter hy) ?_
  simp [rKey, hxurl, hyurl, hxy]

/-- C1: in the scan of `removeRedundantUrlHashes` (operating, after the
duplicate-deletion pre-pass, on a url's date-sorted scores with pairwise
distinct, not-yet-classified hashes), a hash is classified as redundant
only if an earlier (by date) score of the same equivalence run has equal
`final_fk_score` and `total_words`; the first score of every run is
added to `hashesToKeep` and is never classified as redundant. -/
theorem c1_redundant_hash_classification (scores : List RDoc) (st : ScanState)
    (hnd : (scores.map RDoc.hash).Nodup)
    (hfresh : ∀ d ∈ scores, shouldSkip st d.hash = false)
    (hsorted : scores.Pairwise (fun a b => a.date ≤ b.date)) :
    (∀ h, h ∈ (classifyScores st none none scores).redundantHashes →
      h ∉ st.redundantHashes →
      ∃ l1 r t l2, scores = l1 ++ (r :: t) ++ l2 ∧ (∀ q ∈ t, isSame r q = true) ∧
        ∃ p ∈ t, p.hash = h ∧ isSame r p = true ∧ r.date ≤ p.date) ∧
    (∀ rt ∈ equivalenceRuns scores,
      rt.1.hash ∈ (classifyScores st none none scores).hashesToKeep) ∧
    (∀ rt ∈ equivalenceRuns scores,
      rt.1.hash ∉ (classifyScores st none none scores).redundantHashes) := by
  rw [classifyScores_eq_runs]
  refine ⟨?_, ?_, ?_⟩
  · intro h hred hnotst
    simp only [mem_foldl_addSet] at hred
    rcases hred with hred | hred
    · exact absurd hred hnotst
    · simp only [runRedundant, List.mem_flatMap] at hred
      obtain ⟨rt, hrt, hmem⟩ := hred
      obtain ⟨l1, l2, heq, hall⟩ := equivalenceRuns_decomp scores rt hrt
      simp only [List.mem_map] at hmem
      obtain ⟨p, hp, rfl⟩ := hmem
      have hp2 : p ∈ rt.2 := (List.dropLast_sublist rt.2).subset hp
      refine ⟨l1, rt.1, rt.2, l2, heq, hall, p, hp2, rfl, hall p hp2, ?_⟩
      have hsub : (rt.1 :: rt.2).Sublist scores := by
        rw [heq]
        exact (List.sublist_append_right l1 _).trans (List.sublist_append_left _ l2)
      have hpw := hsorted.sublist hsub
      exact (List.pairwise_cons.mp hpw).1 p hp2
  · intro rt hrt
    simp only [mem_foldl_addSet]
    right
    exact List.mem_map_of_mem _ hrt
  · intro rt hrt hmem
    simp only [mem_foldl_addSet] at hmem
    rcases hmem with hmem | hmem
    · have hin : rt.1.hash ∈ scores.map RDoc.hash :=
        runHeads_subset scores _ (List.mem_map_of_mem _ hrt)
      simp only [List.mem_map] at hin
      obtain ⟨d, hd, hdh⟩ := hin
      have hskip := (not_shouldSkip_iff st d.hash).mp (hfresh d hd)
      rw [hdh] at hskip
      exact hskip.1 hmem
    · exact runHeads_not_redundant scores hnd _ (List.mem_map_of_mem _ hrt) hmem

/-- Witness for C1 at `scoresExample` and empty classification sets. -/
theorem c1_redundant_hash_classification_witness :
    (∀ h, h ∈ (classifyScores ⟨[], []⟩ none none scoresExample).redundantHashes →
      h ∉ (⟨[], []⟩ : ScanState).redundantHashes →
      ∃ l1 r t l2, scoresExample = l1 ++ (r :: t) ++ l2 ∧ (∀ q ∈ t, isSame r q = true) ∧
        ∃ p ∈ t, p.hash = h ∧ isSame r p = true ∧ r.date ≤ p.date) ∧
    (∀ rt ∈ equivalenceRuns scoresExample,
      rt.1.hash ∈ (classifyScores ⟨[], []⟩ none none scoresExample).hashesToKeep) ∧
    (∀ rt ∈ equivalenceRuns scoresExample,
      rt.1.hash ∉ (classifyScores ⟨[], []⟩ none none scoresExample).redundantHashes) :=
  c1_redundant_hash_classification scoresExample ⟨[], []⟩ (by decide) (by decide) (by decide)

/-- C9: after the duplicate-deletion pre-pass, the scan keeps
`redundantHashes` and `hashesToKeep` disjoint (hashes already classified
are skipped when later url documents are processed), and only url
documents with more than 6 hashes, more than 2 unclassified hashes and
more than 2 unclassified readability scores can contribute new
classifications. -/
theorem c9_scan_disjoint_and_gating (urls : List UrlAggDoc) (readability R : List RDoc)
    (hids : (readability.map RDoc.rid).Nodup)
    (hded : dedupReadability readability = Except.ok R) :
    (∀ h ∈ (scanPhase urls R).redundantHashes, h ∉ (scanPhase urls R).hashesToKeep) ∧
    (∀ st doc, (doc.hashes.filter (fun e => ! shouldSkip st e.hash)).length ≤ 2 →
      processUrlDoc R st doc = st) ∧
    (∀ st doc,
      (sortBy dateLe ((scoresForUrl R doc.url).filter (fun d => ! shouldSkip st d.hash))).length ≤ 2 →
      processUrlDoc R st doc = st) ∧
    (∀ l1 doc l2, ¬ 6 < doc.hashes.length →
      scanPhase (l1 ++ doc :: l2) R = scanPhase (l1 ++ l2) R) := by
  refine ⟨scanPhase_disjoint urls R (dedup_scores_nodup readability R hded hids), ?_, ?_, ?_⟩
  · intro st doc hlen
    unfold processUrlDoc
    dsimp only
    rw [if_pos hlen]
  · intro st doc hlen
    unfold processUrlDoc
    dsimp only
    by_cases h1 : (doc.hashes.filter (fun e => ! shouldSkip st e.hash)).length ≤ 2
    · rw [if_pos h1]
    · rw [if_neg h1, if_pos hlen]
  · intro l1 doc l2 hle
    unfold scanPhase
    have hfilter : ((l1 ++ doc :: l2).filter (fun d => 6 < d.hashes.length)) =
        ((l1 ++ l2).filter (fun d => 6 < d.hashes.length)) := by
      simp [List.filter_append, List.filter_cons, hle]
    rw [hfilter]

/-- Witness for C9 at `urlsExample` and `readabilityExample` (whose
pre-pass deletes the later duplicate of hash `a`). -/
theorem c9_scan_disjoint_and_gating_witness :
    (∀ h ∈ (scanPhase urlsExample dedupedExample).redundantHashes,
      h ∉ (scanPhase urlsExample dedupedExample).hashesToKeep) ∧
    (∀ st doc, (doc.hashes.filter (fun e => ! shouldSkip st e.hash)).length ≤ 2 →
      processUrlDoc dedupedExample st doc = st) ∧
    (∀ st doc,
      (sortBy dateLe ((scoresForUrl dedupedExample doc.url).filter (fun d => ! shouldSkip st d.hash))).length ≤ 2 →
      processUrlDoc dedupedExample st doc = st) ∧
    (∀ l1 doc l2, ¬ 6 < doc.hashes.length →
      scanPhase (l1 ++ doc :: l2) dedupedExample = scanPhase (l1 ++ l2) dedupedExample) :=
  c9_scan_disjoint_and_gating urlsExample readabilityExample dedupedExample
    (by decide) (by rfl)

theorem removeProcessed_head (rest : List String) (h : String) :
    removeProcessed (h :: rest) h = rest := by
  simp [removeProcessed]

theorem removalLoop_pending (o : RemovalOracle) (hashes : List String)
    (p : PendingOps) (db : RemovalDbState) (tr : List (String × Store))
    (hnd : hashes.Nodup) (hp : ∀ s, p.listFor s = hashes) :
    ∀ s, (removalLoop o hashes p db tr).pending.listFor s =
      hashes.filter (fun x => ! confirmedIn o hashes x s) := by
  induction hashes generalizing p db tr with
  | nil => intro s; simp [removalLoop, hp]
  | cons h rest ih =>
    intro s
    have hnotin : h ∉ rest := (List.nodup_cons.mp hnd).1
    have hndrest : rest.Nodup := (List.nodup_cons.mp hnd).2
    have hu := hp Store.urls
    have hr := hp Store.readability
    have hb := hp Store.blobs
    simp only [PendingOps.listFor] at hu hr hb
    cases ho : o h with
    | none =>
      have hp1 : ∀ s', (setProcessed (setProcessed (setProcessed p Store.urls h)
          Store.readability h) Store.blobs h).listFor s' = rest := by
        intro s'
        cases s' <;>
          simp [setProcessed, PendingOps.listFor, hu, hr, hb, removeProcessed_head]
      simp only [removalLoop, ho]
      rw [ih _ _ _ hndrest hp1 s]
      have hconf : confirmedIn o (h :: rest) h s = true := by
        simp [confirmedIn, ho]
      rw [List.filter_cons]
      simp only [hconf, Bool.not_true, Bool.false_eq_true, if_false]
      refine List.filter_congr ?_
      intro x hx
      have hne : h ≠ x := fun e => hnotin (e ▸ hx)
      simp [confirmedIn, ho, hne]
    | some f =>
      simp only [removalLoop, ho]
      have hrhs : (h :: rest).filter (fun x => ! confirmedIn o (h :: rest) x s) =
          (if f s then [] else [h]) ++ rest := by
        have hfil : ∀ x ∈ rest, (! confirmedIn o (h :: rest) x s) = true := by
          intro x hx
          have hne : h ≠ x := fun e => hnotin (e ▸ hx)
          simp [confirmedIn, ho, hne]
        have hhead : confirmedIn o (h :: rest) h s = f s := by
          simp [confirmedIn, ho]
        rw [List.filter_cons]
        rw [List.filter_eq_self.mpr hfil]
        cases hfs : f s <;> simp [hhead, hfs]
      rw [hrhs]
      cases s <;>
        rcases hfu : f Store.urls <;> rcases hfr : f Store.readability <;>
          rcases hfb : f Store.blobs <;>
          simp [setProcessed, PendingOps.listFor, hfu, hfr, hfb, hu, hr, hb,
            removeProcessed_head]

/-- C2: a hash leaves a `pendingOps` list only once the corresponding
deletion is confirmed, and after a failed round every hash not yet
confirmed for a store is exactly what remains (and so is dumped) in that
store's list: for every store, the final bookkeeping list is the
original redundant list restricted to the unconfirmed hashes. -/
theorem c2_pending_ops_tracking (o : RemovalOracle) (redundant : List String)
    (db : RemovalDbState) (hnd : redundant.Nodup) :
    (∀ s, (removalPhase o redundant db).pending.listFor s =
      redundant.filter (fun x => ! confirmedIn o redundant x s)) ∧
    (∀ s, ∀ x ∈ redundant, x ∉ (removalPhase o redundant db).pending.listFor s →
      confirmedIn o redundant x s = true) ∧
    (∀ s, ∀ x ∈ redundant, confirmedIn o redundant x s = false →
      x ∈ (removalPhase o redundant db).pending.listFor s) := by
  have hmain : ∀ s, (removalPhase o redundant db).pending.listFor s =
      redundant.filter (fun x => ! confirmedIn o redundant x s) := by
    intro s
    unfold removalPhase
    refine removalLoop_pending o redundant _ db [] hnd ?_ s
    intro s'
    cases s' <;> simp [addPending, PendingOps.listFor]
  refine ⟨hmain, ?_, ?_⟩
  · intro s x hx hnotin
    by_contra hconf
    refine hnotin ?_
    rw [hmain s]
    refine List.mem_filter.mpr ⟨hx, ?_⟩
    simp only [Bool.not_eq_true] at hconf ⊢
    simp [hconf]
  · intro s x hx hconf
    rw [hmain s]
    exact List.mem_filter.mpr ⟨hx, by simp [hconf]⟩

/-- Witness for C2 with three hashes where the round for `b` fails
with only the `urls` deletion confirmed. -/
theorem c2_pending_ops_tracking_witness :
    (∀ s, (removalPhase oracleExample ["a", "b", "c"] ⟨[], [], []⟩).pending.listFor s =
      (["a", "b", "c"]).filter (fun x => ! confirmedIn oracleExample ["a", "b", "c"] x s)) ∧
    (∀ s, ∀ x ∈ ["a", "b", "c"],
      x ∉ (removalPhase oracleExample ["a", "b", "c"] ⟨[], [], []⟩).pending.listFor s →
      confirmedIn oracleExample ["a", "b", "c"] x s = true) ∧
    (∀ s, ∀ x ∈ ["a", "b", "c"], confirmedIn oracleExample ["a", "b", "c"] x s = false →
      x ∈ (removalPhase oracleExample ["a", "b", "c"] ⟨[], [], []⟩).pending.listFor s) :=
  c2_pending_ops_tracking oracleExample ["a", "b", "c"] ⟨[], [], []⟩ (by decide)

theorem map_hashes_eta (l : List UrlAggDoc) :
    l.map (fun d => UrlAggDoc.mk d.url d.hashes) = l := by
  induction l with
  | nil => rfl
  | cons d ds ih => simp [ih]

/-- C3: with every deletion succeeding, the removal phase processes the
hashes one at a time in set order, performing for each hash the urls
pull, the readability delete and the blob delete; afterwards every urls
document has its redundant hash entries removed, every readability
document with a redundant hash is deleted, and every redundant blob is
deleted. -/
theorem c3_removal_deletes_everywhere (redundant : List String) (db : RemovalDbState) :
    (removalPhase (fun _ => none) redundant db).trace =
      redundant.flatMap
        (fun h => [(h, Store.urls), (h, Store.readability), (h, Store.blobs)]) ∧
    (removalPhase (fun _ => none) redundant db).db =
      ⟨db.urls.map (fun d => ⟨d.url, d.hashes.filter (fun e => ! redundant.contains e.hash)⟩),
        db.readability.filter (fun r => ! redundant.contains r.hash),
        db.blobs.filter (fun b => ! redundant.contains b)⟩ ∧
    (removalPhase (fun _ => none) redundant db).dumped = false := by
  have hgen : ∀ (hashes : List String) (p : PendingOps) (dbi : RemovalDbState)
      (tr : List (String × Store)),
      (removalLoop (fun _ => none) hashes p dbi tr).trace =
        tr ++ hashes.flatMap
          (fun h => [(h, Store.urls), (h, Store.readability), (h, Store.blobs)]) ∧
      (removalLoop (fun _ => none) hashes p dbi tr).db =
        ⟨dbi.urls.map (fun d => ⟨d.url, d.hashes.filter (fun e => ! hashes.contains e.hash)⟩),
          dbi.readability.filter (fun r => ! hashes.contains r.hash),
          dbi.blobs.filter (fun b => ! hashes.contains b)⟩ ∧
      (removalLoop (fun _ => none) hashes p dbi tr).dumped = false := by
    intro hashes
    induction hashes with
    | nil =>
      intro p dbi tr
      refine ⟨by simp [removalLoop], ?_, by simp [removalLoop]⟩
      simp only [removalLoop]
      rcases dbi with ⟨u, r, b⟩
      simp [map_hashes_eta]
    | cons h rest ih =>
      intro p dbi tr
      simp only [removalLoop]
      obtain ⟨ht, hd, hdump⟩ := ih _ (deleteBlob (deleteReadabilityHash (pullUrlHash dbi h) h) h)
        (tr ++ [(h, Store.urls), (h, Store.readability), (h, Store.blobs)])
      refine ⟨?_, ?_, hdump⟩
      · rw [ht]
        simp [List.flatMap_cons, List.append_assoc]
      · rw [hd]
        simp only [deleteBlob, deleteReadabilityHash, pullUrlHash]
        simp only [RemovalDbState.mk.injEq]
        refine ⟨?_, ?_, ?_⟩
        · rw [List.map_map]
          refine List.map_congr_left ?_
          intro d hdmem
          simp only [Function.comp]
          rw [List.filter_filter]
          refine congrArg (UrlAggDoc.mk d.url) ?_
          refine List.filter_congr ?_
          intro e hemem
          simp [List.contains_cons, Bool.not_or, eq_comm]
          exact Bool.and_comm _ _
        · rw [List.filter_filter]
          refine List.filter_congr ?_
          intro r hrmem
          simp [List.contains_cons, Bool.not_or, eq_comm]
          exact Bool.and_comm _ _
        · rw [List.filter_filter]
          refine List.filter_congr ?_
          intro b hbmem
          simp [List.contains_cons, Bool.not_or, eq_comm]
          exact Bool.and_comm _ _
  exact hgen redundant _ db []

/-- C7: the bulk-write batching loops split the operation list into
successive chunks of at most the batch limit (1000 operations for
`repopulateGscPageSearchTerms`, 20000 for `importGcTss`), the submitted
chunks concatenate back to the original list in order (so every
operation is submitted in exactly one `bulkWrite`/`insertMany` call),
and the loop terminates after exactly `ceil(N / limit)` iterations. -/
theorem c7_bulk_write_batching {α : Type} (ops data : List α) :
    ((repopulateGscPageSearchTermsBatches ops).flatten = ops ∧
      (∀ c ∈ repopulateGscPageSearchTermsBatches ops, c.length ≤ 1000 ∧ c ≠ []) ∧
      (repopulateGscPageSearchTermsBatches ops).length = (ops.length + 1000 - 1) / 1000) ∧
    ((importGcTssBatches data).flatten = data ∧
      (∀ c ∈ importGcTssBatches data, c.length ≤ 20000 ∧ c ≠ []) ∧
      (importGcTssBatches data).length = (data.length + 20000 - 1) / 20000) := by
  refine ⟨⟨spliceChunks_flatten 1000 ops, ?_, spliceChunks_count 1000 (by omega) ops⟩,
    spliceChunks_flatten 20000 data, ?_, spliceChunks_count 20000 (by omega) data⟩
  · intro c hc
    exact ⟨spliceChunks_length_le 1000 (by omega) ops c hc,
      spliceChunks_ne_nil 1000 ops c hc⟩
  · intro c hc
    exact ⟨spliceChunks_length_le 20000 (by omega) data c hc,
      spliceChunks_ne_nil 20000 data c hc⟩

/-- C10: `updateUrls` throws the error
'Cannot use filter option with check404s or checkAll options.' if and
only if the options combine a filter with check404s or checkAll, and in
that case it throws before performing any database operation, leaving
all collections unchanged. -/
theorem c10_updateUrls_guard (options : UpdateUrlsOptions) :
    ((updateUrls options).1 =
        Except.error "Cannot use filter option with check404s or checkAll options." ↔
      options.hasFilter = true ∧ (options.check404s = true ∨ options.checkAll = true)) ∧
    (∀ e, (updateUrls options).1 = Except.error e → (updateUrls options).2 = []) := by
  rcases options with ⟨f, c4, ca⟩
  cases f <;> cases c4 <;> cases ca <;> simp [updateUrls]

/-- Witness for C10 at options with a filter and check404s. -/
theorem c10_updateUrls_guard_witness :
    ((updateUrls ⟨true, true, false⟩).1 =
        Except.error "Cannot use filter option with check404s or checkAll options." ↔
      (UpdateUrlsOptions.mk true true false).hasFilter = true ∧
        ((UpdateUrlsOptions.mk true true false).check404s = true ∨
          (UpdateUrlsOptions.mk true true false).checkAll = true)) ∧
    (∀ e, (updateUrls ⟨true, true, false⟩).1 = Except.error e →
      (updateUrls ⟨true, true, false⟩).2 = []) :=
  c10_updateUrls_guard ⟨true, true, false⟩

/-- C8 counterexample: when the initial Published Pages list update
fails, `updateAll` catches the error (so it does not throw), but none
of the subsequent sub-updates run - in particular the URLs sync never
starts - contradicting the claim that the failure of any individual
sub-update never prevents the subsequent sub-updates from running. -/
theorem c8_pages_list_failure_aborts_rest :
    (updateAll (fun s => s == SubUpdate.updatePagesList)).1 = [[SubUpdate.updatePagesList]] ∧
    (∀ g ∈ (updateAll (fun s => s == SubUpdate.updatePagesList)).1,
      SubUpdate.updateUrls ∉ g) ∧
    (updateAll (fun s => s == SubUpdate.updatePagesList)).2 = false := by
  decide

/-- C8 amended: `updateAll` never throws; the Published Pages list
update is awaited alone before every other stage; when it succeeds all
stages run in the fixed order - page creation strictly after the
page-metrics stage, the URLs sync last - and the failure of any other
sub-update never prevents later stages; a Published Pages list failure,
however, is caught by the outer handler and aborts all later stages. -/
theorem c8_updateAll_order (fails : SubUpdate → Bool) :
    ((updateAll fails).2 = false) ∧
    ((updateAll fails).1.head? = some [SubUpdate.updatePagesList]) ∧
    (fails SubUpdate.updatePagesList = false → (updateAll fails).1 = updateAllGroups) ∧
    (fails SubUpdate.updatePagesList = true →
      (updateAll fails).1 = [[SubUpdate.updatePagesList]]) ∧
    (stageOf SubUpdate.updatePagesList = 0 ∧
      ∀ s, s ≠ SubUpdate.updatePagesList → 0 < stageOf s) ∧
    (stageOf SubUpdate.updatePageMetrics < stageOf SubUpdate.createPagesFromPageList) ∧
    (updateAllGroups.getLast? = some [SubUpdate.updateUrls]) := by
  refine ⟨?_, ?_, ?_, ?_, ⟨by decide, by decide⟩, by decide, by decide⟩
  · cases hf : fails SubUpdate.updatePagesList <;> simp [updateAll, hf]
  · cases hf : fails SubUpdate.updatePagesList <;> simp [updateAll, hf, updateAllGroups]
  · intro h
    simp [updateAll, h]
  · intro h
    simp [updateAll, h]

/-- Witness for C8 (amended) at the all-success oracle. -/
theorem c8_updateAll_order_witness :
    ((updateAll (fun _ => false)).2 = false) ∧
    ((updateAll (fun _ => false)).1.head? = some [SubUpdate.updatePagesList]) ∧
    ((fun _ => false) SubUpdate.updatePagesList = false →
      (updateAll (fun _ => false)).1 = updateAllGroups) ∧
    ((fun _ => false) SubUpdate.updatePagesList = true →
      (updateAll (fun _ => false)).1 = [[SubUpdate.updatePagesList]]) ∧
    (stageOf SubUpdate.updatePagesList = 0 ∧
      ∀ s, s ≠ SubUpdate.updatePagesList → 0 < stageOf s) ∧
    (stageOf SubUpdate.updatePageMetrics < stageOf SubUpdate.createPagesFromPageList) ∧
    (updateAllGroups.getLast? = some [SubUpdate.updateUrls]) :=
  c8_updateAll_order (fun _ => false)

/-- C4: when the computed hash is already in the document's hashes
array, applying the queued update leaves hashes, latest_snapshot,
is_404 and last_modified unchanged while setting title, last_checked,
metadata and links; when the hash is new, it appends the hash with its
date to the hashes array and sets latest_snapshot to the new hash. -/
theorem c4_hash_branch_frame (collectionData : UrlDocument) (page : FetchedPageData)
    (pageRef : Option Nat) (hash : String) (date : Int) :
    (hash ∈ collectionData.hashes.map UrlHashEntry.hash →
      (applyUrlUpdate collectionData
          (checkAndUpdateUrlDataOp collectionData page pageRef hash date)).hashes =
        collectionData.hashes ∧
      (applyUrlUpdate collectionData
          (checkAndUpdateUrlDataOp collectionData page pageRef hash date)).latest_snapshot =
        collectionData.latest_snapshot ∧
      (applyUrlUpdate collectionData
          (checkAndUpdateUrlDataOp collectionData page pageRef hash date)).is_404 =
        collectionData.is_404 ∧
      (applyUrlUpdate collectionData
          (checkAndUpdateUrlDataOp collectionData page pageRef hash date)).last_modified =
        collectionData.last_modified ∧
      (applyUrlUpdate collectionData
          (checkAndUpdateUrlDataOp collectionData page pageRef hash date)).title =
        page.title ∧
      (applyUrlUpdate collectionData
          (checkAndUpdateUrlDataOp collectionData page pageRef hash date)).last_checked =
        some date ∧
      (applyUrlUpdate collectionData
          (checkAndUpdateUrlDataOp collectionData page pageRef hash date)).metadata =
        page.metadata ∧
      (applyUrlUpdate collectionData
          (checkAndUpdateUrlDataOp collectionData page pageRef hash date)).links =
        page.links) ∧
    (hash ∉ collectionData.hashes.map UrlHashEntry.hash →
      (applyUrlUpdate collectionData
          (checkAndUpdateUrlDataOp collectionData page pageRef hash date)).hashes =
        collectionData.hashes ++ [⟨hash, date⟩] ∧
      (applyUrlUpdate collectionData
          (checkAndUpdateUrlDataOp collectionData page pageRef hash date)).latest_snapshot =
        some hash) := by
  constructor
  · intro hmem
    have hc : (collectionData.hashes.map UrlHashEntry.hash).contains hash = true := by
      simpa using hmem
    unfold checkAndUpdateUrlDataOp
    rw [if_pos hc]
    simp [applyUrlUpdate, skipHashUpdateOp, addToSetOne, addToSetEach]
  · intro hmem
    have hc : (collectionData.hashes.map UrlHashEntry.hash).contains hash = false := by
      simpa using hmem
    have hpair : (⟨hash, date⟩ : UrlHashEntry) ∉ collectionData.hashes := fun hm =>
      hmem (List.mem_map_of_mem UrlHashEntry.hash hm)
    unfold checkAndUpdateUrlDataOp
    rw [hc]
    simp [applyUrlUpdate, newHashUpdateOp, addToSetOne, hpair]

/-- Witness for C4 at `urlDocExample`: hash `"h1"` is already stored,
hash `"h2"` is new. -/
theorem c4_hash_branch_frame_witness :
    ((applyUrlUpdate urlDocExample
        (checkAndUpdateUrlDataOp urlDocExample fetchedPageExample (some 9) "h1" 20)).hashes =
      urlDocExample.hashes ∧
    (applyUrlUpdate urlDocExample
        (checkAndUpdateUrlDataOp urlDocExample fetchedPageExample (some 9) "h1" 20)).latest_snapshot =
      urlDocExample.latest_snapshot ∧
    (applyUrlUpdate urlDocExample
        (checkAndUpdateUrlDataOp urlDocExample fetchedPageExample (some 9) "h1" 20)).is_404 =
      urlDocExample.is_404 ∧
    (applyUrlUpdate urlDocExample
        (checkAndUpdateUrlDataOp urlDocExample fetchedPageExample (some 9) "h1" 20)).last_modified =
      urlDocExample.last_modified ∧
    (applyUrlUpdate urlDocExample
        (checkAndUpdateUrlDataOp urlDocExample fetchedPageExample (some 9) "h1" 20)).title =
      fetchedPageExample.title ∧
    (applyUrlUpdate urlDocExample
        (checkAndUpdateUrlDataOp urlDocExample fetchedPageExample (some 9) "h1" 20)).last_checked =
      some 20 ∧
    (applyUrlUpdate urlDocExample
        (checkAndUpdateUrlDataOp urlDocExample fetchedPageExample (some 9) "h1" 20)).metadata =
      fetchedPageExample.metadata ∧
    (applyUrlUpdate urlDocExample
        (checkAndUpdateUrlDataOp urlDocExample fetchedPageExample (some 9) "h1" 20)).links =
      fetchedPageExample.links) ∧
    ((applyUrlUpdate urlDocExample
        (checkAndUpdateUrlDataOp urlDocExample fetchedPageExample (some 9) "h2" 20)).hashes =
      urlDocExample.hashes ++ [⟨"h2", 20⟩] ∧
    (applyUrlUpdate urlDocExample
        (checkAndUpdateUrlDataOp urlDocExample fetchedPageExample (some 9) "h2" 20)).latest_snapshot =
      some "h2") :=
  ⟨(c4_hash_branch_frame urlDocExample fetchedPageExample (some 9) "h1" 20).1 (by decide),
    (c4_hash_branch_frame urlDocExample fetchedPageExample (some 9) "h2" 20).2 (by decide)⟩

theorem stripNodes_no_script (l : List HtmlNode) :
    containsScript (stripNodes l) = false := by
  induction l using stripNodes.induct with
  | case1 => simp [stripNodes, containsScript]
  | case2 s rest ih => simp [stripNodes, containsScript, ih]
  | case3 t a c rest hrem ih => simp [stripNodes, hrem, ih]
  | case4 t a c rest hrem ihc ih =>
    simp only [isRemovedBySelector, Bool.or_eq_true, not_or] at hrem
    simp [stripNodes, isRemovedBySelector, hrem.1, hrem.2, containsScript, ihc, ih]

theorem dropWhile_head_false {α : Type} (p : α → Bool) (l : List α) :
    ∀ c, (l.dropWhile p).head? = some c → p c = false := by
  induction l with
  | nil => simp
  | cons x xs ih =>
    intro c hc
    by_cases hp : p x = true
    · rw [List.dropWhile_cons, if_pos hp] at hc
      exact ih c hc
    · rw [List.dropWhile_cons, if_neg hp] at hc
      simp only [List.head?_cons, Option.some.injEq] at hc
      subst hc
      simpa using hp

theorem collapseWs_chain (l : List Char) : (collapseWs l).Chain' wsRel := by
  induction l using collapseWs.induct with
  | case1 => simp [collapseWs]
  | case2 c rest hws ih =>
    rw [collapseWs, if_pos hws]
    rw [List.chain'_cons']
    refine ⟨?_, ih⟩
    intro b hb
    cases hl : rest.dropWhile (fun c2 => c2.isWhitespace) with
    | nil =>
      rw [hl] at hb
      simp [collapseWs] at hb
    | cons d ds =>
      have hd : (fun c2 => c2.isWhitespace) d = false := by
        refine dropWhile_head_false _ rest d ?_
        rw [hl]
        rfl
      rw [hl, collapseWs, if_neg (by simpa using hd)] at hb
      simp only [List.head?_cons, Option.mem_def, Option.some.injEq] at hb
      subst hb
      intro hcontra
      simp only at hd
      rw [hcontra.2] at hd
      cases hd
  | case3 c rest hws ih =>
    rw [collapseWs, if_neg hws]
    rw [List.chain'_cons']
    refine ⟨?_, ih⟩
    intro b hb hcontra
    exact hws (by simpa using hcontra.1)

theorem collapseWs_ws_space (l : List Char) :
    ∀ c ∈ collapseWs l, c.isWhitespace = true → c = ' ' := by
  induction l using collapseWs.induct with
  | case1 => simp [collapseWs]
  | case2 c rest hws ih =>
    intro d hd hdws
    rw [collapseWs, if_pos hws] at hd
    rcases List.mem_cons.mp hd with rfl | hd
    · rfl
    · exact ih d hd hdws
  | case3 c rest hws ih =>
    intro d hd hdws
    rw [collapseWs, if_neg hws] at hd
    rcases List.mem_cons.mp hd with rfl | hd
    · exact absurd hdws hws
    · exact ih d hd hdws

theorem chain_dropWhile {R : Char → Char → Prop} (p : Char → Bool) (l : List Char)
    (h : l.Chain' R) : (l.dropWhile p).Chain' R := by
  induction l with
  | nil => simp
  | cons x xs ih =>
    rw [List.dropWhile_cons]
    split
    · exact ih h.tail
    · exact h

theorem chain_wsRel_reverse (l : List Char) (h : l.Chain' wsRel) :
    l.reverse.Chain' wsRel := by
  rw [List.chain'_reverse]
  refine h.imp ?_
  intro a b hab hba
  exact hab ⟨hba.2, hba.1⟩

theorem jsTrim_chain (l : List Char) (h : l.Chain' wsRel) : (jsTrim l).Chain' wsRel := by
  unfold jsTrim
  exact chain_wsRel_reverse _ (chain_dropWhile _ _ (chain_wsRel_reverse _ (chain_dropWhile _ _ h)))

theorem jsTrim_subset (l : List Char) : ∀ c ∈ jsTrim l, c ∈ l := by
  intro c hc
  unfold jsTrim at hc
  rw [List.mem_reverse] at hc
  have hc2 := (List.dropWhile_sublist _).subset hc
  rw [List.mem_reverse] at hc2
  exact (List.dropWhile_sublist _).subset hc2

theorem stripCanadaSuffix_append (s : String) :
    stripCanadaSuffix (s ++ " - Canada.ca") = s := by
  have hcore : trimEndWs ((s ++ " - Canada.ca")).data =
      s.data ++ (" - Canada.ca").data := by
    unfold trimEndWs
    rw [String.data_append, List.reverse_append]
    rw [show (" - Canada.ca").data.reverse =
      ['a', 'c', '.', 'a', 'd', 'a', 'n', 'a', 'C', ' ', '-', ' '] from by decide]
    rw [show (['a', 'c', '.', 'a', 'd', 'a', 'n', 'a', 'C', ' ', '-', ' '] ++ s.data.reverse) =
      'a' :: (['c', '.', 'a', 'd', 'a', 'n', 'a', 'C', ' ', '-', ' '] ++ s.data.reverse) from rfl]
    rw [List.dropWhile_cons, if_neg (by decide)]
    simp only [List.reverse_cons, List.reverse_append, List.reverse_reverse,
      List.append_assoc]
    congr 1
  unfold stripCanadaSuffix
  rw [hcore]
  rw [if_pos (by rw [List.isSuffixOf_iff_suffix]; exact List.suffix_append _ _)]
  have hlen : (s.data ++ (" - Canada.ca").data).length - 12 = s.data.length := by
    simp [List.length_append, show (" - Canada.ca").data.length = 12 from by decide]
  rw [hlen, List.take_left]

/-- C5: `processHtml` removes all script elements; it returns nothing
exactly when the (post-removal) first main element's HTML trims to
empty; on success the title is the document's title text with the
trailing ` - Canada.ca` suffix removed and whitespace runs collapsed to
single spaces (adjacent whitespace never survives and every surviving
whitespace character is a plain space), the extracted metadata, links
and langHrefs are returned, and the content hash of
`checkAndUpdateUrlData` is the MD5 of the processed body rather than of
the raw response body. -/
theorem c5_processHtml_normalization (doc : List HtmlNode) (md5 : String → String) :
    (containsScript (stripNodes doc) = false) ∧
    (processHtml doc = none ↔ jsTrim (mainInnerHtml (stripNodes doc)).data = []) ∧
    (∀ r, processHtml doc = some r →
      r.title = transformTitle (titleTextOfNodes (stripNodes doc)) ∧
      r.title.data.Chain' wsRel ∧
      (∀ c ∈ r.title.data, c.isWhitespace = true → c = ' ') ∧
      r.metadata = fromEntries (metaEntries (stripNodes doc)) ∧
      r.links = (anchorsInMains (stripNodes doc)).map
        (fun p => UrlLink.mk (transformHref p.1) p.2) ∧
      r.langHrefs = fromEntries (langHrefEntries (stripNodes doc)) ∧
      r.body = renderNodes (stripNodes doc) ∧
      contentHash md5 doc = some (md5 (renderNodes (stripNodes doc)))) ∧
    (∀ s, stripCanadaSuffix (s ++ " - Canada.ca") = s) := by
  refine ⟨stripNodes_no_script doc, ?_, ?_, stripCanadaSuffix_append⟩
  · unfold processHtml
    by_cases hmain : jsTrim (mainInnerHtml (stripNodes doc)).data = []
    · simp [hmain]
    · simp [hmain]
  · intro r hr
    unfold processHtml at hr
    by_cases hmain : jsTrim (mainInnerHtml (stripNodes doc)).data = []
    · simp [hmain] at hr
    · rw [if_neg hmain] at hr
      injection hr with hr
      subst hr
      refine ⟨rfl, ?_, ?_, rfl, rfl, rfl, rfl, ?_⟩
      · exact jsTrim_chain _ (collapseWs_chain _)
      · intro c hc hws
        exact collapseWs_ws_space _ c (jsTrim_subset _ c hc) hws
      · unfold contentHash
        rw [show processHtml doc = some
          { title := transformTitle (titleTextOfNodes (stripNodes doc)),
            body := renderNodes (stripNodes doc),
            metadata := fromEntries (metaEntries (stripNodes doc)),
            links := (anchorsInMains (stripNodes doc)).map
              (fun p => UrlLink.mk (transformHref p.1) p.2),
            langHrefs := fromEntries (langHrefEntries (stripNodes doc)) } from by
          unfold processHtml
          simp [hmain]]
        rfl

/-- Witness for C5 at a concrete parsed page with an identity hash
function. -/
theorem c5_processHtml_normalization_witness :
    (containsScript (stripNodes htmlDocExample) = false) ∧
    (processHtml htmlDocExample = none ↔
      jsTrim (mainInnerHtml (stripNodes htmlDocExample)).data = []) ∧
    (∀ r, processHtml htmlDocExample = some r →
      r.title = transformTitle (titleTextOfNodes (stripNodes htmlDocExample)) ∧
      r.title.data.Chain' wsRel ∧
      (∀ c ∈ r.title.data, c.isWhitespace = true → c = ' ') ∧
      r.metadata = fromEntries (metaEntries (stripNodes htmlDocExample)) ∧
      r.links = (anchorsInMains (stripNodes htmlDocExample)).map
        (fun p => UrlLink.mk (transformHref p.1) p.2) ∧
      r.langHrefs = fromEntries (langHrefEntries (stripNodes htmlDocExample)) ∧
      r.body = renderNodes (stripNodes htmlDocExample) ∧
      contentHash (fun s => s) htmlDocExample =
        some ((fun s => s) (renderNodes (stripNodes htmlDocExample)))) ∧
    (∀ s, stripCanadaSuffix (s ++ " - Canada.ca") = s) :=
  c5_processHtml_normalization htmlDocExample (fun s => s)

theorem blobLookup_append_of_none (store l2 : BlobStore) (hash : String)
    (h : blobLookup store hash = none) :
    blobLookup (store ++ l2) hash = blobLookup l2 hash := by
  induction store with
  | nil => rfl
  | cons e rest ih =>
    rw [List.cons_append]
    by_cases hk : e.1 = hash
    · rw [show blobLookup (e :: rest) hash =
        (if e.1 = hash then some e.2 else blobLookup rest hash) from rfl, if_pos hk] at h
      cases h
    · rw [show blobLookup (e :: (rest ++ l2)) hash =
        (if e.1 = hash then some e.2 else blobLookup (rest ++ l2) hash) from rfl, if_neg hk]
      rw [show blobLookup (e :: rest) hash =
        (if e.1 = hash then some e.2 else blobLookup rest hash) from rfl, if_neg hk] at h
      exact ih h

theorem blobLookup_setMeta (store : BlobStore) (hash : String) (urls : List String)
    (entry : BlobEntry) (h : blobLookup store hash = some entry) :
    blobLookup (blobSetMeta store hash urls) hash = some { entry with urls := urls } := by
  induction store with
  | nil => cases h
  | cons e rest ih =>
    by_cases hk : e.1 = hash
    · unfold blobLookup at h
      rw [if_pos hk] at h
      injection h with h
      subst h
      unfold blobSetMeta
      rw [List.map_cons, if_pos hk]
      unfold blobLookup
      rw [if_pos hk]
    · unfold blobLookup at h
      rw [if_neg hk] at h
      unfold blobSetMeta at ih ⊢
      rw [List.map_cons, if_neg hk]
      unfold blobLookup
      rw [if_neg hk]
      exact ih h

/-- C6 counterexample: when minifying the processed body fails (the
source's malformed-html fallback), the snapshot stored under the fresh
hash is the processed body as-is, not a minified copy - minification
produced no output at all. -/
theorem c6_unminified_fallback_counterexample :
    blobLookup (storeSnapshotBlob (fun _ => Except.error ()) [] "u" "h" "<main>x</main>" 0)
      "h" = some ⟨"<main>x</main>", ["u"], 0⟩ ∧
    ¬ ∃ m, (fun _ => (Except.error () : Except Unit String)) "<main>x</main>" =
      Except.ok m := by
  constructor
  · rfl
  · rintro ⟨m, hm⟩
    cases hm

/-- C6 amended: for a fetched page whose hash has no existing blob, the
stored snapshot is the minified processed body when minification
succeeds, and the processed body as-is when minification fails; for a
page whose hash matches an existing blob whose metadata urls list
contains the url at most once (the invariant this code maintains), the
url afterwards appears exactly once in that blob's metadata urls. -/
theorem c6_snapshot_upload (minify : String → Except Unit String) (store : BlobStore)
    (url hash body : String) (date : Int) :
    (∀ m, blobLookup store hash = none → minify body = Except.ok m →
      blobLookup (storeSnapshotBlob minify store url hash body date) hash =
        some ⟨m, [url], date⟩) ∧
    (∀ e, blobLookup store hash = none → minify body = Except.error e →
      blobLookup (storeSnapshotBlob minify store url hash body date) hash =
        some ⟨body, [url], date⟩) ∧
    (∀ entry, blobLookup store hash = some entry → entry.urls.count url ≤ 1 →
      ∃ entry2, blobLookup (storeSnapshotBlob minify store url hash body date) hash =
        some entry2 ∧ entry2.urls.count url = 1) := by
  refine ⟨?_, ?_, ?_⟩
  · intro m h0 hm
    unfold storeSnapshotBlob
    rw [h0, hm]
    rw [blobLookup_append_of_none store _ hash h0]
    unfold blobLookup
    rw [if_pos rfl]
  · intro e h0 hm
    unfold storeSnapshotBlob
    rw [h0, hm]
    rw [blobLookup_append_of_none store _ hash h0]
    unfold blobLookup
    rw [if_pos rfl]
  · intro entry h0 hle
    unfold storeSnapshotBlob
    rw [h0]
    dsimp only
    by_cases hmem : url ∈ entry.urls
    · rw [if_pos hmem]
      refine ⟨entry, h0, ?_⟩
      have hpos : 0 < entry.urls.count url := List.count_pos_iff.mpr hmem
      omega
    · rw [if_neg hmem]
      refine ⟨{ entry with urls := entry.urls ++ [url] },
        blobLookup_setMeta store hash _ entry h0, ?_⟩
      simp only [List.count_append]
      rw [List.count_eq_zero.mpr hmem]
      simp

/-- Witness for C6 (amended): a successful minification at a fresh
hash, a failing minification at a fresh hash, and a metadata update on
an existing blob. -/
theorem c6_snapshot_upload_witness :
    blobLookup (storeSnapshotBlob (fun _ => Except.ok "mini") [] "u" "h" "<main>x</main>" 0)
      "h" = some ⟨"mini", ["u"], 0⟩ ∧
    blobLookup (storeSnapshotBlob (fun _ => Except.error ()) [] "u" "h" "<main>x</main>" 0)
      "h" = some ⟨"<main>x</main>", ["u"], 0⟩ ∧
    ∃ entry2, blobLookup
        (storeSnapshotBlob (fun _ => Except.ok "mini")
          [("h", ⟨"c", ["v"], 0⟩)] "u" "h" "<main>x</main>" 1) "h" =
      some entry2 ∧ entry2.urls.count "u" = 1 :=
  ⟨(c6_snapshot_upload (fun _ => Except.ok "mini") [] "u" "h" "<main>x</main>" 0).1
      "mini" rfl rfl,
    (c6_snapshot_upload (fun _ => Except.error ()) [] "u" "h" "<main>x</main>" 0).2.1
      () rfl rfl,
    (c6_snapshot_upload (fun _ => Except.ok "mini") [("h", ⟨"c", ["v"], 0⟩)]
      "u" "h" "<main>x</main>" 1).2.2 ⟨"c", ["v"], 0⟩ rfl (by decide)⟩

end UpdPipeline
